import Mathlib

/-!
# DBcoin: a shallow embedding of `src/blockchain.js`

The three classes of `src/blockchain.js` (`Transaction`, `Block`, `Blockchain`) are
translated method by method, followed by the two setter routes of `index.js`.

Modelling conventions.

* JavaScript values are typed as the JSDoc of the source types them: an address is a
  string, and the two address fields of a transaction hold a string or `null`
  (`none`); `signature` holds a string or is `undefined` (`none`); amounts, rewards and
  timestamps are integers (`Int`), the difficulty and the nonce are naturals.
* The arithmetic of the source on amounts is IEEE 754 double precision: the sum or
  difference of two integers is rounded to the nearest double (ties to even) and
  overflows to an infinity, and a comparison with `NaN` is false. `JSNumber` holds the
  values this arithmetic produces from integers. The amount of a transaction is
  understood to be a double with an integer value (every integer of magnitude at most
  2^53 is one); an amount with a fractional part is outside the model. Rounding to 53
  bits commutes with a change of unit by a power of two, so sums, differences and
  comparisons of amounts that are multiples of one power of two behave as those of the
  integers they are in that unit (0.7, 0.6 and 0.1 are 50440315826549552,
  43234556422756760 and 7205759403792794 in units of 2^-56). An integer is printed in
  decimal.
* What the source takes from its libraries and from the JavaScript runtime is a
  parameter, collected in `Runtime`: the SHA-256 hex digest, signing and verification on
  secp256k1 (package `elliptic`) and `JSON.stringify`.
* `Date.now()` is an argument of the operation that reads the clock.
* A `throw` is the `Except.error` result.  Operations on the ledger return the final
  state together with the result, so the state after a failed call is observable.
* `mineBlock` is an unbounded `while` loop; the model counts evaluations of the loop
  condition with a fuel argument and returns `none` when the fuel runs out. The
  `RangeError` that the loop condition raises at a difficulty for which the string of
  zeros cannot be built is a result of `minePendingTransactions`.
-/

namespace DBcoin

/-- Errors thrown by the methods of `blockchain.js`, one constructor per `throw`, plus
the runtime `TypeError` and errors raised inside the `elliptic` package. -/
inductive Error where
  /-- The message is 'Key mismatch. You cannot sign transactions for other wallets.' -/
  | keyMismatch
  /-- The message is 'No signature provided for this transaction.' -/
  | noSignature
  /-- The message is 'Transaction does not include from address' -/
  | noFromAddress
  /-- The message is 'Transaction does not include to address.' -/
  | noToAddress
  /-- The message is 'Transaction invalid. Cannot add to chain.' -/
  | invalidTransaction
  /-- The message is 'Transaction amount invalid. Should be greater than 0.' -/
  | invalidAmount
  /-- The message is 'Not enough balance to perform the transaction.' -/
  | notEnoughBalance
  /-- The message is 'Cannot perform transaction. Total transaction amount including
  pending transactions exceed wallet balance.' -/
  | pendingExceedsBalance
  /-- A `TypeError` of the runtime: a property read on `undefined`, or a number handed
  to the digest's `update`. -/
  | typeError
  /-- A `RangeError` of the runtime: `Array(n)` with a length above 4294967295, or a
  string longer than the runtime allows. -/
  | rangeError
  /-- An error raised inside the `elliptic` package. -/
  | library (msg : String)
  deriving DecidableEq, Repr

deriving instance DecidableEq for Except

/-- The class `Transaction`: `fromAddress`, `toAddress`, `amount`, `timestamp` are set by
the constructor, `signature` by `signTransaction` (`none` is `undefined`). For the two
addresses `none` is `null`. -/
structure Transaction where
  fromAddress : Option String
  toAddress : Option String
  amount : Int
  timestamp : Int
  signature : Option String
  deriving DecidableEq, Repr

/-- The class `Block`. -/
structure Block where
  timestamp : Int
  transactions : List Transaction
  previousHash : String
  hash : String
  nonce : Nat
  deriving DecidableEq, Repr

/-- The elliptic key pair object handed to `signTransaction`: `getPublic('hex')` and the
private key used by `sign`. -/
structure SigningKey where
  publicKey : String
  privateKey : String
  deriving DecidableEq, Repr

/-- The library and runtime functions used by `blockchain.js`.

* `sha256 s` is `crypto.createHash('sha256').update(s).digest('hex')`;
* `ecSign priv msg` is `signingKey.sign(msg, 'base64').toDER('hex')`;
* `ecVerify pub msg sig` is `ec.keyFromPublic(pub, 'hex').verify(msg, sig)`, which
  returns a boolean or throws;
* `stringifyTransactions` and `stringifyBlock` are `JSON.stringify` on an array of
  transactions and on a block;
* `joinLimit` is the largest `d` for which `Array(d + 1).join("0")` returns the string of
  `d` zeros: `Array(n)` raises a `RangeError` for `n` above 4294967295, and the runtime
  raises one for a string beyond its longest string. A digest, 64 characters long, is
  within that limit. -/
structure Runtime where
  sha256 : String → String
  ecSign : String → String → String
  ecVerify : String → String → String → Except Error Bool
  stringifyTransactions : List Transaction → String
  stringifyBlock : Block → String
  joinLimit : Nat
  joinLimit_lt : joinLimit < 4294967295
  sha256_le : ∀ s : String, (sha256 s).length ≤ joinLimit

/-- String conversion of an address field inside a `+` concatenation: `null` becomes
the text "null". -/
def jsString : Option String → String
  | none => "null"
  | some s => s

/-- The test `!x` on an address field: `null` and the empty string are falsy. -/
def falsy : Option String → Bool
  | none => true
  | some s => s == ""

/-! ## Transaction -/

/-- The constructor `new Transaction(fromAddress, toAddress, amount)`; `now` is
`Date.now()`. The field `signature` is not set. -/
def Transaction.new (now : Int) (fromAddress toAddress : Option String) (amount : Int) :
    Transaction :=
  { fromAddress := fromAddress, toAddress := toAddress, amount := amount,
    timestamp := now, signature := none }

/-- The argument of `update` in `Transaction.calculateHash`:
`this.fromAddress + this.toAddress + this.amount + this.timestamp`, evaluated left to
right. When both addresses are `null` every `+` is a numeric addition and the value is
a number (`none`), not a string. -/
def Transaction.hashInput (tx : Transaction) : Option String :=
  match tx.fromAddress, tx.toAddress with
  | none, none => none
  | f, t => some (jsString f ++ jsString t ++ toString tx.amount ++ toString tx.timestamp)

/-- The method `Transaction.calculateHash`. The digest's `update` throws a `TypeError` on
a number. -/
def Transaction.calculateHash (env : Runtime) (tx : Transaction) : Except Error String :=
  match tx.hashInput with
  | none => .error .typeError
  | some s => .ok (env.sha256 s)

/-- The method `Transaction.signTransaction`: the result of the call and the transaction
object afterwards. -/
def Transaction.signTransaction (env : Runtime) (signingKey : SigningKey) (tx : Transaction) :
    Except Error Unit × Transaction :=
  if some signingKey.publicKey ≠ tx.fromAddress then
    (.error .keyMismatch, tx)
  else
    match tx.calculateHash env with
    | .error e => (.error e, tx)
    | .ok hashTx => (.ok (), { tx with signature := some (env.ecSign signingKey.privateKey hashTx) })

/-- The method `Transaction.isValid`. -/
def Transaction.isValid (env : Runtime) (tx : Transaction) : Except Error Bool :=
  match tx.fromAddress with
  | none => .ok true
  | some fromAddress =>
    match tx.signature with
    | none => .error .noSignature
    | some signature =>
      if signature.length = 0 then .error .noSignature
      else
        match tx.calculateHash env with
        | .error e => .error e
        | .ok h => env.ecVerify fromAddress h signature

/-! ## Block -/

/-- String conversion of `this.nonce` inside a `+` concatenation; `none` is `undefined`,
the value of the field while the constructor computes the first hash. -/
def nonceString : Option Nat → String
  | none => "undefined"
  | some n => toString n

/-- The digest computed by `Block.calculateHash` from the four fields it reads. -/
def blockDigest (env : Runtime) (previousHash : String) (timestamp : Int)
    (transactions : List Transaction) (nonce : Option Nat) : String :=
  env.sha256 (previousHash ++ toString timestamp ++ env.stringifyTransactions transactions
    ++ nonceString nonce)

/-- The method `Block.calculateHash` on a constructed block. -/
def Block.calculateHash (env : Runtime) (b : Block) : String :=
  blockDigest env b.previousHash b.timestamp b.transactions (some b.nonce)

/-- The constructor `new Block(timestamp, transactions, previousHash)`. The statement
`this.hash = this.calculateHash()` runs before `this.nonce = 0`, so the first hash is
computed while `this.nonce` is `undefined`. -/
def Block.new (env : Runtime) (timestamp : Int) (transactions : List Transaction)
    (previousHash : String) : Block :=
  { timestamp := timestamp, transactions := transactions, previousHash := previousHash,
    hash := blockDigest env previousHash timestamp transactions none, nonce := 0 }

/-- The condition of the `while` loop of `mineBlock`:
`this.hash.substring(0, difficulty) !== Array(difficulty + 1).join("0")`, at a difficulty
for which the right-hand side is built (`difficulty ≤ joinLimit`). -/
def needsMoreWork (difficulty : Nat) (hash : String) : Bool :=
  hash.data.take difficulty != List.replicate difficulty '0'

/-- The method `Block.mineBlock`. The first argument bounds the number of evaluations of
the loop condition; `none` means the bound was reached. At a difficulty above `joinLimit`
the first evaluation of the loop condition raises a `RangeError` instead; that case is
decided by the caller, `minePendingTransactions`, before this loop runs. -/
def Block.mineBlock (env : Runtime) (difficulty : Nat) : Nat → Block → Option Block
  | 0, _ => none
  | fuel + 1, b =>
    if needsMoreWork difficulty b.hash then
      Block.mineBlock env difficulty fuel
        { b with nonce := b.nonce + 1,
                 hash := Block.calculateHash env { b with nonce := b.nonce + 1 } }
    else some b

/-- The loop of `Block.hasValidTransactions` over a list of transactions. -/
def hasValidTransactionsLoop (env : Runtime) : List Transaction → Except Error Bool
  | [] => .ok true
  | tx :: rest =>
    match tx.isValid env with
    | .error e => .error e
    | .ok false => .ok false
    | .ok true => hasValidTransactionsLoop env rest

/-- The method `Block.hasValidTransactions`. -/
def Block.hasValidTransactions (env : Runtime) (b : Block) : Except Error Bool :=
  hasValidTransactionsLoop env b.transactions

/-! ## Numbers -/

/-- The values that the arithmetic of the source produces from integer amounts: a double
with an integer value, an infinity, or `NaN`. -/
inductive JSNumber where
  | finite (value : Int)
  | posInf
  | negInf
  | nan
  deriving DecidableEq, Repr

/-- The number of low bits that rounding to 53 bits drops from a magnitude `a`: the
least `k` for which `a / 2 ^ k` is below 2^53. The first argument bounds the search;
`a` itself is enough. -/
def droppedBits : Nat → Nat → Nat
  | 0, _ => 0
  | fuel + 1, a => if a < 9007199254740992 then 0 else droppedBits fuel (a / 2) + 1

/-- Rounding of an integer to double precision, to nearest with ties to even. An integer
of magnitude at most 2^53 is a double. Otherwise the magnitude `a` has more than 53
bits: `k` low bits are dropped, `q` holds the upper 53 bits and `r` the dropped ones, and
`q` is raised by one when `r` is above the half of `2 ^ k`, or equal to it with `q` odd.
The result overflows to an infinity when it reaches 2^1024. -/
def roundDouble (n : Int) : JSNumber :=
  if n.natAbs ≤ 9007199254740992 then .finite n
  else
    let a := n.natAbs
    let k := droppedBits a a
    let q := a / 2 ^ k
    let r := a % 2 ^ k
    let half := 2 ^ (k - 1)
    let q' := if r > half ∨ (r = half ∧ q % 2 = 1) then q + 1 else q
    if k > 971 ∨ (k = 971 ∧ q' = 9007199254740992) then
      (if n < 0 then .negInf else .posInf)
    else .finite (if n < 0 then -((q' * 2 ^ k : Nat) : Int) else ((q' * 2 ^ k : Nat) : Int))

/-- The operator `+` on numbers. -/
def JSNumber.add : JSNumber → JSNumber → JSNumber
  | .finite a, .finite b => roundDouble (a + b)
  | .nan, _ => .nan
  | _, .nan => .nan
  | .posInf, .negInf => .nan
  | .negInf, .posInf => .nan
  | .posInf, _ => .posInf
  | _, .posInf => .posInf
  | .negInf, _ => .negInf
  | _, .negInf => .negInf

/-- The operator `-` on numbers. -/
def JSNumber.sub : JSNumber → JSNumber → JSNumber
  | .finite a, .finite b => roundDouble (a - b)
  | .nan, _ => .nan
  | _, .nan => .nan
  | .posInf, .posInf => .nan
  | .negInf, .negInf => .nan
  | .posInf, _ => .posInf
  | _, .negInf => .posInf
  | .negInf, _ => .negInf
  | _, .posInf => .negInf

/-- The operator `<` on numbers; `a > b` is `b < a`. A comparison with `NaN` is false. -/
def JSNumber.lt : JSNumber → JSNumber → Bool
  | .finite a, .finite b => decide (a < b)
  | .nan, _ => false
  | _, .nan => false
  | .negInf, .negInf => false
  | .negInf, _ => true
  | _, .negInf => false
  | .posInf, _ => false
  | .finite _, .posInf => true

/-! ## Blockchain -/

/-- The class `Blockchain`. -/
structure Blockchain where
  chain : List Block
  difficulty : Nat
  pendingTransactions : List Transaction
  miningReward : Int
  deriving DecidableEq, Repr

/-- The final state of a call on the ledger together with its result. -/
structure Outcome where
  result : Except Error Unit
  state : Blockchain
  deriving DecidableEq

/-- The value of `Date.parse('2024-05-20')`: midnight UTC, in milliseconds. -/
def genesisTimestamp : Int := 1716163200000

/-- The method `Blockchain.createGenesisBlock`. -/
def createGenesisBlock (env : Runtime) : Block :=
  Block.new env genesisTimestamp [] "0"

/-- The constructor `new Blockchain()`. -/
def Blockchain.new (env : Runtime) : Blockchain :=
  { chain := [createGenesisBlock env], difficulty := 1, pendingTransactions := [],
    miningReward := 100 }

/-- The method `Blockchain.setMiningReward`. -/
def Blockchain.setMiningReward (reward : Int) (s : Blockchain) : Blockchain :=
  { s with miningReward := reward }

/-- The method `Blockchain.setDifficulty`. -/
def Blockchain.setDifficulty (difficulty : Nat) (s : Blockchain) : Blockchain :=
  { s with difficulty := difficulty }

/-- The method `Blockchain.getLatestBlock`: `this.chain[this.chain.length - 1]`, which is
`undefined` (`none`) on an empty array. -/
def Blockchain.getLatestBlock (s : Blockchain) : Option Block :=
  s.chain[s.chain.length - 1]?

/-- The method `Blockchain.minePendingTransactions`. `txNow` and `blockNow` are the two
readings of `Date.now()` (reward transaction, block); `fuel` bounds the mining loop. The
reward transaction is pushed first; a `TypeError` (no latest block) or the `RangeError`
of the loop condition of `mineBlock` leaves it in the pool. -/
def Blockchain.minePendingTransactions (env : Runtime) (txNow blockNow : Int) (fuel : Nat)
    (miningRewardAddress : String) (s : Blockchain) : Option Outcome :=
  let rewardTx := Transaction.new txNow none (some miningRewardAddress) s.miningReward
  let pending := s.pendingTransactions ++ [rewardTx]
  match s.getLatestBlock with
  | none => some { result := .error .typeError, state := { s with pendingTransactions := pending } }
  | some latest =>
    if s.difficulty > env.joinLimit then
      some { result := .error .rangeError, state := { s with pendingTransactions := pending } }
    else
      match Block.mineBlock env s.difficulty fuel (Block.new env blockNow pending latest.hash) with
      | none => none
      | some block =>
        some { result := .ok (),
               state := { s with chain := s.chain ++ [block], pendingTransactions := [] } }

/-- The method `Blockchain.getBalanceOfAddress`: the two nested `for` loops, with
`balance -= trans.amount` and `balance += trans.amount` in double precision. -/
def Blockchain.getBalanceOfAddress (s : Blockchain) (address : String) : JSNumber :=
  s.chain.foldl
    (fun balance block =>
      block.transactions.foldl
        (fun balance trans =>
          let balance :=
            if trans.fromAddress = some address then balance.sub (.finite trans.amount)
            else balance
          if trans.toAddress = some address then balance.add (.finite trans.amount)
          else balance)
        balance)
    (.finite 0)

/-- The call `.reduce((prev, curr) => prev + curr)` without an initial value, on a
non-empty array (on an empty array it throws a `TypeError`). -/
def reduceAdd : List Int → Except Error JSNumber
  | [] => .error .typeError
  | x :: xs => .ok (xs.foldl (fun prev curr => prev.add (.finite curr)) (.finite x))

/-- The method `Blockchain.addTransaction`. -/
def Blockchain.addTransaction (env : Runtime) (transaction : Transaction) (s : Blockchain) :
    Outcome :=
  match transaction.fromAddress with
  | none => { result := .error .noFromAddress, state := s }
  | some fromAddress =>
    if falsy (some fromAddress) then { result := .error .noFromAddress, state := s }
    else if falsy transaction.toAddress then { result := .error .noToAddress, state := s }
    else
      match transaction.isValid env with
      | .error e => { result := .error e, state := s }
      | .ok false => { result := .error .invalidTransaction, state := s }
      | .ok true =>
        if transaction.amount ≤ 0 then { result := .error .invalidAmount, state := s }
        else
          let walletBalance := s.getBalanceOfAddress fromAddress
          if walletBalance.lt (.finite transaction.amount) then
            { result := .error .notEnoughBalance, state := s }
          else
            let pendingTxForWallet :=
              s.pendingTransactions.filter (fun tx => tx.fromAddress = transaction.fromAddress)
            let accepted : Outcome :=
              { result := .ok (),
                state := { s with pendingTransactions := s.pendingTransactions ++ [transaction] } }
            if pendingTxForWallet.length > 0 then
              match reduceAdd (pendingTxForWallet.map (fun tx => tx.amount)) with
              | .error e => { result := .error e, state := s }
              | .ok totalPendingAmount =>
                let totalAmount := totalPendingAmount.add (.finite transaction.amount)
                if walletBalance.lt totalAmount then
                  { result := .error .pendingExceedsBalance, state := s }
                else accepted
            else accepted

/-- The body of the `for` loop of `isChainValid` at index `i`. Every path through the
body ends in a `return` (the last statement is an unconditional `return true`), or in a
`TypeError` when `this.chain[i]` is `undefined`. -/
def isChainValidBody (env : Runtime) (chain : List Block) (i : Nat) : Except Error Bool :=
  match chain[i]? with
  | none => .error .typeError
  | some currentBlock =>
    match currentBlock.hasValidTransactions env with
    | .error e => .error e
    | .ok false => .ok false
    | .ok true =>
      if currentBlock.hash ≠ currentBlock.calculateHash env then .ok false
      else
        match chain[i - 1]? with
        | none => .error .typeError
        | some previousBlock =>
          if currentBlock.previousHash ≠ previousBlock.hash then .ok false
          else .ok true

/-- The method `Blockchain.isChainValid`. On an empty chain `JSON.stringify(undefined)`
is `undefined`, which differs from the string `realGenesis`. Otherwise the loop starts
at `i = 1`, its condition `1 <= this.chain.length` holds, and the body returns or throws
in that first iteration, so `i++` is never executed. -/
def Blockchain.isChainValid (env : Runtime) (s : Blockchain) : Except Error Bool :=
  match s.chain[0]? with
  | none => .ok false
  | some first =>
    if env.stringifyBlock (createGenesisBlock env) ≠ env.stringifyBlock first then .ok false
    else isChainValidBody env s.chain 1

/-! ## The two setter routes of `index.js` -/

/-- The response of a route handler: the status code and the text of the `error` or
`message` field of the JSON body. -/
structure Response where
  status : Nat
  text : String
  deriving DecidableEq, Repr

/-- The handler of `POST /setMiningReward`. The argument is `req.body.reward`, a number or
absent (`none`); the test `!req.body.reward` holds for an absent value and for 0. -/
def postSetMiningReward (reward : Option Int) (s : Blockchain) : Response × Blockchain :=
  match reward with
  | none => ({ status := 400, text := "reward not provided." }, s)
  | some r =>
    if r = 0 then ({ status := 400, text := "reward not provided." }, s)
    else ({ status := 200, text := "mining reward set." }, s.setMiningReward r)

/-- The handler of `POST /setDifficulty`. The argument is `req.body.difficulty`, a number
or absent (`none`). The handler calls `dbcoin.setMiningReward(req.body.difficulty)`. -/
def postSetDifficulty (difficulty : Option Int) (s : Blockchain) : Response × Blockchain :=
  match difficulty with
  | none => ({ status := 400, text := "difficulty not provided." }, s)
  | some d =>
    if d = 0 then ({ status := 400, text := "difficulty not provided." }, s)
    else ({ status := 200, text := "mining difficulty set." }, s.setMiningReward d)


/-! ## Quantities named by the specification -/

/-- The contribution of one committed transaction to the balance of `address`: `+amount`
when `address` is the recipient, `-amount` when it is the sender. -/
def txDelta (address : String) (tx : Transaction) : Int :=
  (if tx.toAddress = some address then tx.amount else 0)
    - (if tx.fromAddress = some address then tx.amount else 0)

/-- The sum of `txDelta address` over a list of transactions. -/
def netAmount (address : String) (txs : List Transaction) : Int :=
  (txs.map (txDelta address)).sum

/-- The replayed balance: the sum of the contributions of every transaction of every
block of the chain. -/
def replayBalance (chain : List Block) (address : String) : Int :=
  ((chain.map (fun b => b.transactions)).flatten.map (txDelta address)).sum

/-- The sum of the amounts of the transactions of `txs` sent from `address`. -/
def sentFrom (address : String) (txs : List Transaction) : Int :=
  ((txs.filter (fun tx => tx.fromAddress = some address)).map (fun tx => tx.amount)).sum

/-- The sum of the amounts of the transactions of `txs` sent to `address`. -/
def sentTo (address : String) (txs : List Transaction) : Int :=
  ((txs.filter (fun tx => tx.toAddress = some address)).map (fun tx => tx.amount)).sum

/-- The reward transaction built by `minePendingTransactions`. -/
def rewardTransaction (txNow : Int) (miningRewardAddress : String) (s : Blockchain) :
    Transaction :=
  Transaction.new txNow none (some miningRewardAddress) s.miningReward

/-- One pass of the body of the inner loop of `getBalanceOfAddress`. -/
def balanceStep (address : String) (balance : JSNumber) (trans : Transaction) : JSNumber :=
  let balance :=
    if trans.fromAddress = some address then balance.sub (.finite trans.amount)
    else balance
  if trans.toAddress = some address then balance.add (.finite trans.amount)
  else balance

/-- The bound 2^53: every integer of magnitude at most 2^53 is a double, so sums and
differences that stay within it are computed without rounding. -/
def exactBound : Nat := 9007199254740992

/-- The volume of a list of transactions: the sum of the magnitudes of their amounts. -/
def volume (txs : List Transaction) : Nat :=
  (txs.map (fun tx => tx.amount.natAbs)).sum

/-- The volume of a chain: the sum of the volumes of its blocks. -/
def chainVolume (chain : List Block) : Nat :=
  (chain.map (fun b => volume b.transactions)).sum

/-- Ledger states reachable from a fresh ledger by calls of `addTransaction` (failed
calls included) and calls of `minePendingTransactions` that end, by returning or by
raising. -/
inductive Reachable (env : Runtime) : Blockchain → Prop where
  | fresh : Reachable env (Blockchain.new env)
  | add (s : Blockchain) (tx : Transaction) :
      Reachable env s → Reachable env (s.addTransaction env tx).state
  | mine (s : Blockchain) (txNow blockNow : Int) (fuel : Nat) (addr : String) (out : Outcome) :
      Reachable env s →
      s.minePendingTransactions env txNow blockNow fuel addr = some out →
      Reachable env out.state

/-- The conditions under which `addTransaction` admits a transaction, read off the six
guards of the method: a non-empty sender `a`, a non-empty recipient, a signature that
verifies, a positive amount, a balance of `a` that is not below the amount, and, when `a`
has transactions pending, a balance that is not below their total plus the amount. The
two comparisons and the total are those of the method, in double precision. -/
def Admissible (env : Runtime) (tx : Transaction) (s : Blockchain) : Prop :=
  ∃ a, tx.fromAddress = some a ∧ a ≠ "" ∧ falsy tx.toAddress = false ∧
    tx.isValid env = .ok true ∧ 0 < tx.amount ∧
    (s.getBalanceOfAddress a).lt (.finite tx.amount) = false ∧
    ∀ totalPendingAmount,
      reduceAdd ((s.pendingTransactions.filter (fun t => t.fromAddress = some a)).map
        (fun t => t.amount)) = .ok totalPendingAmount →
      (s.getBalanceOfAddress a).lt (totalPendingAmount.add (.finite tx.amount)) = false

/-! ## A small runtime and concrete ledgers, for evaluating the model -/

/-- A runtime on which the model can be evaluated. The digest puts one character before
its input, "f" when the input ends in the letter d (as the text "undefined" does) and "0"
otherwise, so the hash computed by the constructor of a block does not meet difficulty 1
and the hash at nonce 1 does; it keeps at most 4294967294 characters, the length of the
longest string of zeros of this runtime, and is injective on shorter inputs. A signature
is the private key followed by a colon and the message, and verification compares with
that text under the public key (in this scheme the two keys of a pair are the same
string). -/
def toyRuntime : Runtime :=
  { sha256 := fun s =>
      String.mk (((if s.data.getLast? = some 'd' then "f" else "0") ++ s).data.take 4294967294)
    ecSign := fun priv msg => priv ++ ":" ++ msg
    ecVerify := fun pub msg sig => .ok (sig == pub ++ ":" ++ msg)
    stringifyTransactions := fun txs =>
      String.join (txs.map (fun tx =>
        "[" ++ jsString tx.fromAddress ++ "," ++ jsString tx.toAddress ++ "," ++
          toString tx.amount ++ "," ++ toString tx.timestamp ++ "," ++
          (tx.signature.getD "") ++ "]"))
    stringifyBlock := fun b =>
      toString b.timestamp ++ "|" ++ toString b.transactions.length ++ "|" ++
        b.previousHash ++ "|" ++ b.hash ++ "|" ++ toString b.nonce
    joinLimit := 4294967294
    joinLimit_lt := by decide
    sha256_le := fun s => by
      simp only [String.length]
      exact List.length_take_le _ _ }

/-- The state after a call of `minePendingTransactions` that ends, by returning or by
raising; the state is returned as it was when the fuel does not suffice for the mining
loop. -/
def afterMining (env : Runtime) (txNow blockNow : Int) (fuel : Nat) (addr : String)
    (s : Blockchain) : Blockchain :=
  match s.minePendingTransactions env txNow blockNow fuel addr with
  | some out => out.state
  | none => s

/-- The key pair of the wallet "A" in `toyRuntime`. -/
def keyA : SigningKey := { publicKey := "A", privateKey := "A" }

/-- A transfer from "A" to `recipient`, signed with `keyA`. -/
def signedTransfer (now : Int) (recipient : Option String) (amount : Int) : Transaction :=
  ((Transaction.new now (some "A") recipient amount).signTransaction toyRuntime keyA).2

/-- A fresh ledger on which "A" has mined one block. -/
def ledgerOneBlock : Blockchain :=
  afterMining toyRuntime 1 2 2 "A" (Blockchain.new toyRuntime)

/-- The ledger of the end-to-end scenario: "A" mines, sends 40 to "B", and mines again. -/
def ledgerTwoBlocks : Blockchain :=
  afterMining toyRuntime 4 5 2 "A"
    (ledgerOneBlock.addTransaction toyRuntime (signedTransfer 3 (some "B") 40)).state

/-- A third block: "A" sends 10 to "B" and mines. -/
def ledgerThreeBlocks : Blockchain :=
  afterMining toyRuntime 7 8 2 "A"
    (ledgerTwoBlocks.addTransaction toyRuntime (signedTransfer 6 (some "B") 10)).state

/-- Sets the amount of every transaction of a block, leaving the stored hash as it is. -/
def Block.withAmounts (amount : Int) (b : Block) : Block :=
  { b with transactions := b.transactions.map (fun tx => { tx with amount := amount }) }

/-- The ledger `ledgerThreeBlocks` after the transactions of its last block (index 3)
have been altered. -/
def tamperedLedger : Blockchain :=
  { ledgerThreeBlocks with
    chain := ledgerThreeBlocks.chain.take 3 ++
      (ledgerThreeBlocks.chain.drop 3).map (Block.withAmounts 1000000) }

/-- The invariant of reachable ledgers on amounts: the chain is not empty, the reward is
not negative, no pending amount is negative, and, as long as the volume of the chain and
of the pool together is within `exactBound`, for every address the pending amounts sent
from it are covered by the replayed balance. -/
def LedgerInv (s : Blockchain) : Prop :=
  s.chain ≠ [] ∧ 0 ≤ s.miningReward ∧ (∀ tx ∈ s.pendingTransactions, 0 ≤ tx.amount) ∧
    (chainVolume s.chain + volume s.pendingTransactions ≤ exactBound →
      ∀ a : String, sentFrom a s.pendingTransactions ≤ replayBalance s.chain a)

/-- The ledger `ledgerOneBlock` with a transfer of 60 from "A" to "B" pending. -/
def ledgerPendingSixty : Blockchain :=
  (ledgerOneBlock.addTransaction toyRuntime (signedTransfer 3 (some "B") 60)).state

/-- The block that `minePendingTransactions` constructs and hands to `mineBlock`. -/
def candidateBlock (env : Runtime) (txNow blockNow : Int) (addr : String) (s : Blockchain)
    (latest : Block) : Block :=
  Block.new env blockNow (s.pendingTransactions ++ [rewardTransaction txNow addr s]) latest.hash

/-- The mining loop on block `b` has an exit: the stored hash of `b` meets the difficulty,
or the digest at some later nonce does. -/
def WorkExists (env : Runtime) (difficulty : Nat) (b : Block) : Prop :=
  needsMoreWork difficulty b.hash = false ∨
    ∃ k : Nat, needsMoreWork difficulty
      (blockDigest env b.previousHash b.timestamp b.transactions (some (b.nonce + k + 1))) = false

/-- The ledger `ledgerOneBlock` with a transfer of 40 from "A" to "B" pending. -/
def ledgerPendingForty : Blockchain :=
  (ledgerOneBlock.addTransaction toyRuntime (signedTransfer 3 (some "B") 40)).state

/-! ## Definitions for the claims on mining, validation and reachable ledgers -/

/-- Ledger states reachable from a fresh ledger by calls of `addTransaction` (failed calls
included), calls of `minePendingTransactions` that end (by returning or by raising),
`setDifficulty` and `setMiningReward`. -/
inductive ReachableWithSettings (env : Runtime) : Blockchain → Prop where
  | fresh : ReachableWithSettings env (Blockchain.new env)
  | add (s : Blockchain) (tx : Transaction) :
      ReachableWithSettings env s → ReachableWithSettings env (s.addTransaction env tx).state
  | mine (s : Blockchain) (txNow blockNow : Int) (fuel : Nat) (addr : String) (out : Outcome) :
      ReachableWithSettings env s →
      s.minePendingTransactions env txNow blockNow fuel addr = some out →
      ReachableWithSettings env out.state
  | setDifficulty (s : Blockchain) (difficulty : Nat) :
      ReachableWithSettings env s → ReachableWithSettings env (s.setDifficulty difficulty)
  | setMiningReward (s : Blockchain) (reward : Int) :
      ReachableWithSettings env s → ReachableWithSettings env (s.setMiningReward reward)

/-- Every block after the first names the stored hash of the block before it. -/
def Linked (chain : List Block) : Prop :=
  ∀ (i : Nat) (b c : Block), chain[i]? = some b → chain[i + 1]? = some c →
    c.previousHash = b.hash

/-- The invariant of reachable ledgers on what is committed and what is pending: the
chain starts with the genesis block and is linked, every committed and every pending
transaction passes `isValid`, and every pending transaction names a recipient. -/
def CommitInv (env : Runtime) (s : Blockchain) : Prop :=
  (∃ rest, s.chain = createGenesisBlock env :: rest) ∧ Linked s.chain ∧
    (∀ b ∈ s.chain, ∀ tx ∈ b.transactions, tx.isValid env = .ok true) ∧
    (∀ tx ∈ s.pendingTransactions, tx.isValid env = .ok true ∧ ∃ t, tx.toAddress = some t)

/-- Applies `f` to the element at index `i` of a list, when there is one. -/
def updateAt {α : Type} (f : α → α) : Nat → List α → List α
  | _, [] => []
  | 0, x :: xs => f x :: xs
  | i + 1, x :: xs => x :: updateAt f i xs

/-- The ledger after the amount of transaction `j` of block `i` has been overwritten, all
stored hashes being left as they are. -/
def Blockchain.tamperAmount (i j : Nat) (amount : Int) (s : Blockchain) : Blockchain :=
  { s with
    chain := updateAt
      (fun b => { b with
        transactions := updateAt (fun tx => { tx with amount := amount }) j b.transactions })
      i s.chain }

/-- The sum of the amounts of a list of transactions. -/
def totalAmount (txs : List Transaction) : Int :=
  (txs.map (fun tx => tx.amount)).sum

/-- The fresh ledger of `toyRuntime` set to difficulty 0, on which "A" has mined one
block. -/
def ledgerDifficultyZero : Blockchain :=
  afterMining toyRuntime 1 2 1 "A" ((Blockchain.new toyRuntime).setDifficulty 0)

/-- Ledger states reachable from a fresh ledger by calls of `setMiningReward` with a
value that is not negative, calls of `addTransaction` (failed calls included) and calls
of `minePendingTransactions` that end (by returning or by raising). -/
inductive ReachableWithRewards (env : Runtime) : Blockchain → Prop where
  | fresh : ReachableWithRewards env (Blockchain.new env)
  | add (s : Blockchain) (tx : Transaction) :
      ReachableWithRewards env s → ReachableWithRewards env (s.addTransaction env tx).state
  | mine (s : Blockchain) (txNow blockNow : Int) (fuel : Nat) (addr : String) (out : Outcome) :
      ReachableWithRewards env s →
      s.minePendingTransactions env txNow blockNow fuel addr = some out →
      ReachableWithRewards env out.state
  | setMiningReward (s : Blockchain) (reward : Int) :
      ReachableWithRewards env s → 0 ≤ reward →
      ReachableWithRewards env (s.setMiningReward reward)

/-! ## Ledgers at the limits of the arithmetic and of the difficulty -/

/-- The key pair of the wallet "B" in `toyRuntime`. -/
def keyB : SigningKey := { publicKey := "B", privateKey := "B" }

/-- A transfer from "B" to `recipient`, signed with `keyB`. -/
def signedTransferFromB (now : Int) (recipient : Option String) (amount : Int) : Transaction :=
  ((Transaction.new now (some "B") recipient amount).signTransaction toyRuntime keyB).2

/-- The fresh ledger of `toyRuntime` with the reward set to 2^53, on which "A" has mined
one block: "A" holds 9007199254740992. -/
def ledgerLargeReward : Blockchain :=
  afterMining toyRuntime 1 2 2 "A" ((Blockchain.new toyRuntime).setMiningReward 9007199254740992)

/-- The ledger `ledgerLargeReward` with the reward set to 1. -/
def ledgerRewardOne : Blockchain :=
  ledgerLargeReward.setMiningReward 1

/-- The ledger `ledgerRewardOne` after "A" has mined a second block, for a reward of 1. -/
def ledgerLargeThenOne : Blockchain :=
  afterMining toyRuntime 3 4 2 "A" ledgerRewardOne

/-- The ledger `ledgerLargeReward` with a transfer of 2^53 from "A" to "B" pending. -/
def ledgerAllPending : Blockchain :=
  (ledgerLargeReward.addTransaction toyRuntime (signedTransfer 3 (some "B") 9007199254740992)).state

/-- The ledger `ledgerAllPending` after "A" has added a further transfer of 1 to "B". -/
def ledgerOverPending : Blockchain :=
  (ledgerAllPending.addTransaction toyRuntime (signedTransfer 4 (some "B") 1)).state

/-- The ledger `ledgerOverPending` after "M" has mined the two transfers. -/
def ledgerOverdrawn : Blockchain :=
  afterMining toyRuntime 5 6 2 "M" ledgerOverPending

/-- A ledger on which "B" holds 100 and "A" holds 2^53: "B" mines on the fresh ledger,
the reward is set to 2^53 and "A" mines. -/
def ledgerLargeAndSmall : Blockchain :=
  afterMining toyRuntime 3 4 2 "A"
    ((afterMining toyRuntime 1 2 2 "B" (Blockchain.new toyRuntime)).setMiningReward
      9007199254740992)

/-- The ledger `ledgerLargeAndSmall` with two transfers of 1 from "B" to "A" pending. -/
def ledgerTwoOnesPending : Blockchain :=
  ((ledgerLargeAndSmall.addTransaction toyRuntime (signedTransferFromB 5 (some "A") 1)).state
    |>.addTransaction toyRuntime (signedTransferFromB 6 (some "A") 1)).state

/-- The ledger `ledgerTwoOnesPending` after "M" has mined the two transfers. -/
def ledgerTwoOnesMined : Blockchain :=
  afterMining toyRuntime 7 8 2 "M" ledgerTwoOnesPending

/-- The fresh ledger of `toyRuntime` set to difficulty 4294967295. -/
def ledgerLargeDifficulty : Blockchain :=
  (Blockchain.new toyRuntime).setDifficulty 4294967295

/-- The ledger `ledgerLargeDifficulty` after a call of `minePendingTransactions` for "A",
which raises. -/
def ledgerRaised : Blockchain :=
  afterMining toyRuntime 1 2 2 "A" ledgerLargeDifficulty

/-- The ledger `ledgerRaised` set back to difficulty 1. -/
def ledgerRaisedReset : Blockchain :=
  ledgerRaised.setDifficulty 1

/-- The ledger `ledgerRaisedReset` after "A" has mined one block. -/
def ledgerTwoRewards : Blockchain :=
  afterMining toyRuntime 3 4 2 "A" ledgerRaisedReset

/-! ## Arithmetic within 2^53 is exact -/

theorem roundDouble_exact (n : Int) (h : n.natAbs ≤ exactBound) : roundDouble n = .finite n := by
  unfold roundDouble
  simp only [exactBound] at h
  rw [if_pos h]

theorem add_exact (a b : Int) (h : (a + b).natAbs ≤ exactBound) :
    (JSNumber.finite a).add (.finite b) = .finite (a + b) := by
  simp only [JSNumber.add]
  exact roundDouble_exact _ h

theorem sub_exact (a b : Int) (h : (a - b).natAbs ≤ exactBound) :
    (JSNumber.finite a).sub (.finite b) = .finite (a - b) := by
  simp only [JSNumber.sub]
  exact roundDouble_exact _ h

theorem lt_finite (a b : Int) : (JSNumber.finite a).lt (.finite b) = decide (a < b) := rfl

theorem volume_cons (tx : Transaction) (rest : List Transaction) :
    volume (tx :: rest) = tx.amount.natAbs + volume rest := by
  simp [volume]

theorem volume_append (xs ys : List Transaction) :
    volume (xs ++ ys) = volume xs + volume ys := by
  simp [volume]

theorem chainVolume_append (chain : List Block) (b : Block) :
    chainVolume (chain ++ [b]) = chainVolume chain + volume b.transactions := by
  simp [chainVolume]

theorem volume_filter_le (p : Transaction → Bool) (txs : List Transaction) :
    volume (txs.filter p) ≤ volume txs := by
  induction txs with
  | nil => simp
  | cons tx rest ih =>
    simp only [List.filter_cons]
    split
    · simp only [volume_cons]; omega
    · simp only [volume_cons]; omega

/-! ## Balance replay -/

theorem balanceStep_exact (address : String) (b : Int) (tx : Transaction)
    (h : b.natAbs + tx.amount.natAbs ≤ exactBound) :
    balanceStep address (.finite b) tx = .finite (b + txDelta address tx) ∧
      (b + txDelta address tx).natAbs ≤ b.natAbs + tx.amount.natAbs := by
  simp only [exactBound] at h
  unfold balanceStep txDelta
  by_cases h1 : tx.fromAddress = some address <;> by_cases h2 : tx.toAddress = some address
  · simp only [h1, h2, if_true]
    rw [sub_exact _ _ (by simp only [exactBound]; omega),
      add_exact _ _ (by simp only [exactBound]; omega)]
    refine ⟨by congr 1; omega, by omega⟩
  · simp only [h1, h2, if_true, if_false]
    rw [sub_exact _ _ (by simp only [exactBound]; omega)]
    refine ⟨by congr 1; omega, by omega⟩
  · simp only [h1, h2, if_true, if_false]
    rw [add_exact _ _ (by simp only [exactBound]; omega)]
    refine ⟨by congr 1; omega, by omega⟩
  · simp only [h1, h2, if_false]
    refine ⟨by congr 1; omega, by omega⟩

theorem foldl_transactions (address : String) (txs : List Transaction) (b : Int)
    (h : b.natAbs + volume txs ≤ exactBound) :
    txs.foldl (balanceStep address) (.finite b) = .finite (b + netAmount address txs) ∧
      (b + netAmount address txs).natAbs ≤ b.natAbs + volume txs := by
  induction txs generalizing b with
  | nil => simp [netAmount, volume]
  | cons tx rest ih =>
    rw [volume_cons] at h
    obtain ⟨e1, b1⟩ := balanceStep_exact address b tx (by omega)
    obtain ⟨e2, b2⟩ := ih (b + txDelta address tx) (by omega)
    simp only [List.foldl_cons, e1, e2, netAmount, List.map_cons, List.sum_cons, volume_cons]
    simp only [netAmount] at b2
    refine ⟨by congr 1; omega, by omega⟩

theorem foldl_blocks (address : String) (chain : List Block) (b : Int)
    (h : b.natAbs + chainVolume chain ≤ exactBound) :
    chain.foldl (fun balance block => block.transactions.foldl (balanceStep address) balance)
        (.finite b) = .finite (b + replayBalance chain address) ∧
      (b + replayBalance chain address).natAbs ≤ b.natAbs + chainVolume chain := by
  induction chain generalizing b with
  | nil => simp [replayBalance, chainVolume]
  | cons blk rest ih =>
    have hv : chainVolume (blk :: rest) = volume blk.transactions + chainVolume rest := by
      simp [chainVolume]
    rw [hv] at h ⊢
    obtain ⟨e1, b1⟩ := foldl_transactions address blk.transactions b (by omega)
    obtain ⟨e2, b2⟩ := ih (b + netAmount address blk.transactions) (by omega)
    have hr : replayBalance (blk :: rest) address
        = netAmount address blk.transactions + replayBalance rest address := by
      simp [replayBalance, netAmount]
    simp only [List.foldl_cons, e1, e2, hr]
    refine ⟨by congr 1; omega, by omega⟩

theorem getBalanceOfAddress_eq_foldl (s : Blockchain) (address : String) :
    s.getBalanceOfAddress address
      = s.chain.foldl
          (fun balance block => block.transactions.foldl (balanceStep address) balance)
          (.finite 0) := rfl

theorem getBalanceOfAddress_exact (s : Blockchain) (address : String)
    (h : chainVolume s.chain ≤ exactBound) :
    s.getBalanceOfAddress address = .finite (replayBalance s.chain address) := by
  rw [getBalanceOfAddress_eq_foldl]
  have := (foldl_blocks address s.chain 0 (by simpa using h)).1
  simpa using this

theorem replayBalance_append (chain : List Block) (b : Block) (address : String) :
    replayBalance (chain ++ [b]) address
      = replayBalance chain address + netAmount address b.transactions := by
  simp [replayBalance, netAmount]

theorem netAmount_eq (address : String) (txs : List Transaction) :
    netAmount address txs = sentTo address txs - sentFrom address txs := by
  induction txs with
  | nil => simp [netAmount, sentTo, sentFrom]
  | cons tx rest ih =>
    simp only [netAmount, List.map_cons, List.sum_cons] at ih ⊢
    rw [ih]
    simp only [sentTo, sentFrom, txDelta, List.filter_cons]
    by_cases h1 : tx.toAddress = some address <;> by_cases h2 : tx.fromAddress = some address <;>
      simp [h1, h2] <;> omega

theorem sentFrom_append (address : String) (xs ys : List Transaction) :
    sentFrom address (xs ++ ys) = sentFrom address xs + sentFrom address ys := by
  simp [sentFrom]

theorem sentTo_append (address : String) (xs ys : List Transaction) :
    sentTo address (xs ++ ys) = sentTo address xs + sentTo address ys := by
  simp [sentTo]

theorem getBalanceOfAddress_fresh (env : Runtime) (x : String) :
    (Blockchain.new env).getBalanceOfAddress x = .finite 0 := by
  simp [getBalanceOfAddress_eq_foldl, Blockchain.new, createGenesisBlock, Block.new]

/-! ## Mining -/

theorem mineBlock_fields (env : Runtime) (d : Nat) :
    ∀ (fuel : Nat) (b b' : Block), Block.mineBlock env d fuel b = some b' →
      b'.timestamp = b.timestamp ∧ b'.transactions = b.transactions ∧
        b'.previousHash = b.previousHash := by
  intro fuel
  induction fuel with
  | zero => intro b b' h; simp [Block.mineBlock] at h
  | succ n ih =>
    intro b b' h
    unfold Block.mineBlock at h
    split at h
    · have := ih _ _ h
      simpa using this
    · simp at h; subst h; simp

theorem mineBlock_done (env : Runtime) (d fuel : Nat) (b : Block)
    (h : needsMoreWork d b.hash = false) : Block.mineBlock env d (fuel + 1) b = some b := by
  simp [Block.mineBlock, h]

theorem mineBlock_terminates (env : Runtime) (d : Nat) :
    ∀ (k : Nat) (b : Block),
      needsMoreWork d
        (blockDigest env b.previousHash b.timestamp b.transactions (some (b.nonce + k + 1))) = false →
      ∃ b', Block.mineBlock env d (k + 2) b = some b' := by
  intro k
  induction k with
  | zero =>
    intro b h
    unfold Block.mineBlock
    split
    · refine ⟨_, mineBlock_done env d 0 _ ?_⟩
      simpa [Block.calculateHash] using h
    · exact ⟨b, rfl⟩
  | succ k ih =>
    intro b h
    unfold Block.mineBlock
    split
    · apply ih
      simp only [Block.calculateHash]
      have e : b.nonce + 1 + k + 1 = b.nonce + (k + 1) + 1 := by omega
      rw [e]; exact h
    · exact ⟨b, rfl⟩

theorem getLatestBlock_eq (s : Blockchain) : s.getLatestBlock = s.chain.getLast? := by
  simp [Blockchain.getLatestBlock, List.getLast?_eq_getElem?]

theorem getLast_of_ne_nil (chain : List Block) (h : chain ≠ []) :
    ∃ latest, chain.getLast? = some latest := by
  cases hc : chain.getLast? with
  | none => exact absurd (List.getLast?_eq_none_iff.mp hc) h
  | some b => exact ⟨b, rfl⟩

theorem minePendingTransactions_cases (env : Runtime) (txNow blockNow : Int) (fuel : Nat)
    (addr : String) (s : Blockchain) (out : Outcome)
    (h : s.minePendingTransactions env txNow blockNow fuel addr = some out) :
    (out.result ≠ .ok () ∧ (s.chain = [] ∨ s.difficulty > env.joinLimit) ∧
        out.state = { s with pendingTransactions :=
          s.pendingTransactions ++ [rewardTransaction txNow addr s] }) ∨
      (s.difficulty ≤ env.joinLimit ∧
        ∃ latest B, s.chain.getLast? = some latest ∧
          out = { result := .ok (),
                  state := { s with chain := s.chain ++ [B], pendingTransactions := [] } } ∧
          B.transactions = s.pendingTransactions ++ [rewardTransaction txNow addr s] ∧
          B.previousHash = latest.hash ∧ B.timestamp = blockNow) := by
  unfold Blockchain.minePendingTransactions at h
  rw [getLatestBlock_eq] at h
  cases hl : s.chain.getLast? with
  | none =>
    rw [hl] at h
    simp only [Option.some.injEq] at h
    left
    subst h
    exact ⟨by simp, Or.inl (List.getLast?_eq_none_iff.mp hl), rfl⟩
  | some latest =>
    rw [hl] at h
    simp only at h
    by_cases hd : s.difficulty > env.joinLimit
    · rw [if_pos hd] at h
      simp only [Option.some.injEq] at h
      left
      subst h
      exact ⟨by simp, Or.inr hd, rfl⟩
    · rw [if_neg hd] at h
      right
      refine ⟨by omega, latest, ?_⟩
      split at h
      · simp at h
      · rename_i block hb
        have hf := mineBlock_fields env _ _ _ _ hb
        simp only [Option.some.injEq] at h
        exact ⟨block, rfl, h.symm, by simpa [Block.new, rewardTransaction] using hf.2.1,
          by simpa [Block.new] using hf.2.2, by simpa [Block.new] using hf.1⟩

theorem minePendingTransactions_ok (env : Runtime) (txNow blockNow : Int) (fuel : Nat)
    (addr : String) (s : Blockchain) (out : Outcome)
    (h : s.minePendingTransactions env txNow blockNow fuel addr = some out)
    (hok : out.result = .ok ()) :
    ∃ latest B, s.chain.getLast? = some latest ∧
      out = { result := .ok (),
              state := { s with chain := s.chain ++ [B], pendingTransactions := [] } } ∧
      B.transactions = s.pendingTransactions ++ [rewardTransaction txNow addr s] ∧
      B.previousHash = latest.hash ∧ B.timestamp = blockNow := by
  rcases minePendingTransactions_cases env txNow blockNow fuel addr s out h with h1 | h1
  · exact absurd hok h1.1
  · exact h1.2

theorem minePendingTransactions_some (env : Runtime) (txNow blockNow : Int) (fuel : Nat)
    (addr : String) (s : Blockchain) (out : Outcome) (latest : Block)
    (hl : s.chain.getLast? = some latest) (hd : s.difficulty ≤ env.joinLimit)
    (h : s.minePendingTransactions env txNow blockNow fuel addr = some out) :
    ∃ B, out = { result := .ok (),
                 state := { s with chain := s.chain ++ [B], pendingTransactions := [] } } ∧
      B.transactions = s.pendingTransactions ++ [rewardTransaction txNow addr s] ∧
      B.previousHash = latest.hash ∧ B.timestamp = blockNow := by
  rcases minePendingTransactions_cases env txNow blockNow fuel addr s out h with h1 | h1
  · rcases h1.2.1 with h2 | h2
    · rw [h2] at hl; simp at hl
    · omega
  · obtain ⟨-, latest', B, hl', hout, htx, hprev, hts⟩ := h1
    rw [hl] at hl'
    have := Option.some.inj hl'
    subst this
    exact ⟨B, hout, htx, hprev, hts⟩

theorem mineBlock_returns (env : Runtime) (d : Nat) (b : Block) (h : WorkExists env d b) :
    ∃ fuel b', Block.mineBlock env d fuel b = some b' := by
  rcases h with h | ⟨k, h⟩
  · exact ⟨1, b, mineBlock_done env d 0 b h⟩
  · obtain ⟨b', hb⟩ := mineBlock_terminates env d k b h
    exact ⟨k + 2, b', hb⟩

theorem minePendingTransactions_returns (env : Runtime) (txNow blockNow : Int) (addr : String)
    (s : Blockchain) (latest : Block) (hl : s.chain.getLast? = some latest)
    (hd : s.difficulty ≤ env.joinLimit)
    (h : WorkExists env s.difficulty (candidateBlock env txNow blockNow addr s latest)) :
    ∃ fuel out, s.minePendingTransactions env txNow blockNow fuel addr = some out ∧
      out.result = .ok () := by
  obtain ⟨fuel, b', hb⟩ := mineBlock_returns env _ _ h
  refine ⟨fuel, Outcome.mk (.ok ())
      { s with chain := s.chain ++ [b'], pendingTransactions := [] }, ?_, rfl⟩
  unfold Blockchain.minePendingTransactions
  rw [getLatestBlock_eq, hl]
  simp only [candidateBlock, rewardTransaction] at hb
  simp only [hb]
  rw [if_neg (by omega)]

theorem rangeError_above_joinLimit (env : Runtime) (txNow blockNow : Int) (fuel : Nat)
    (addr : String) (s : Blockchain) (latest : Block) (hl : s.chain.getLast? = some latest)
    (hd : s.difficulty > env.joinLimit) :
    s.minePendingTransactions env txNow blockNow fuel addr
      = some { result := .error .rangeError,
               state := { s with pendingTransactions :=
                 s.pendingTransactions ++ [rewardTransaction txNow addr s] } } := by
  unfold Blockchain.minePendingTransactions
  rw [getLatestBlock_eq, hl]
  simp only [if_pos hd]
  rfl

/-! ## Admission -/

theorem foldl_add_exact (xs : List Int) (x : Int)
    (h : x.natAbs + (xs.map Int.natAbs).sum ≤ exactBound) :
    xs.foldl (fun prev curr => JSNumber.add prev (.finite curr)) (.finite x)
        = .finite (x + xs.sum) ∧
      (x + xs.sum).natAbs ≤ x.natAbs + (xs.map Int.natAbs).sum := by
  induction xs generalizing x with
  | nil => simp
  | cons y ys ih =>
    simp only [List.map_cons, List.sum_cons] at h ⊢
    simp only [exactBound] at h
    have e1 := add_exact x y (by simp only [exactBound]; omega)
    obtain ⟨e2, b2⟩ := ih (x + y) (by simp only [exactBound]; omega)
    simp only [List.foldl_cons, e1, e2]
    refine ⟨by congr 1; omega, by omega⟩

theorem reduceAdd_exact (xs : List Int) (hne : xs ≠ [])
    (h : (xs.map Int.natAbs).sum ≤ exactBound) :
    reduceAdd xs = .ok (.finite xs.sum) ∧ xs.sum.natAbs ≤ (xs.map Int.natAbs).sum := by
  cases xs with
  | nil => exact absurd rfl hne
  | cons x xs =>
    simp only [List.map_cons, List.sum_cons] at h ⊢
    obtain ⟨e, b⟩ := foldl_add_exact xs x h
    exact ⟨by simp only [reduceAdd, e], b⟩

theorem reduceAdd_ok (xs : List Int) (hne : xs ≠ []) : ∃ t, reduceAdd xs = .ok t := by
  cases xs with
  | nil => exact absurd rfl hne
  | cons x xs => exact ⟨_, rfl⟩

theorem map_amount_natAbs (txs : List Transaction) :
    ((txs.map (fun t => t.amount)).map Int.natAbs).sum = volume txs := by
  simp [volume, List.map_map, Function.comp_def]

theorem addTransaction_of_admissible (env : Runtime) (tx : Transaction) (s : Blockchain)
    (h : Admissible env tx s) :
    s.addTransaction env tx =
      { result := .ok (),
        state := { s with pendingTransactions := s.pendingTransactions ++ [tx] } } := by
  obtain ⟨a, hf, ha, ht, hv, hpos, hbal, hpend⟩ := h
  unfold Blockchain.addTransaction
  have hfa : falsy (some a) = false := by simpa [falsy] using ha
  simp only [hf, hfa, ht, hv, hbal, Bool.false_eq_true, if_false]
  rw [if_neg (by omega)]
  split
  · cases hr : reduceAdd (List.map (fun t => t.amount)
        (List.filter (fun t => decide (t.fromAddress = some a)) s.pendingTransactions)) with
    | error e =>
      rename_i hlen
      obtain ⟨t, ht⟩ := reduceAdd_ok (List.map (fun t => t.amount)
        (List.filter (fun t => decide (t.fromAddress = some a)) s.pendingTransactions)) (by
          intro hnil
          simp only [List.map_eq_nil_iff] at hnil
          rw [hnil] at hlen; simp at hlen)
      rw [hr] at ht; simp at ht
    | ok total =>
      simp only [hpend total hr, Bool.false_eq_true, if_false]
  · rfl

theorem addTransaction_cases (env : Runtime) (tx : Transaction) (s : Blockchain) :
    ((s.addTransaction env tx).result ≠ .ok () ∧ (s.addTransaction env tx).state = s) ∨
      Admissible env tx s := by
  unfold Blockchain.addTransaction
  cases hf : tx.fromAddress with
  | none => left; simp
  | some a =>
    simp only []
    by_cases h1 : falsy (some a) = true
    · left; simp [h1]
    by_cases h2 : falsy tx.toAddress = true
    · left; simp [h1, h2]
    simp only [h1, h2, if_false]
    cases hv : tx.isValid env with
    | error e => left; simp
    | ok b =>
      cases b with
      | false => left; simp
      | true =>
        simp only []
        by_cases h3 : tx.amount ≤ 0
        · left; simp [h3]
        by_cases h4 : (s.getBalanceOfAddress a).lt (.finite tx.amount) = true
        · left; simp [h3, h4]
        simp only [h3, h4, if_false]
        have base : a ≠ "" ∧ falsy tx.toAddress = false ∧ 0 < tx.amount ∧
            (s.getBalanceOfAddress a).lt (.finite tx.amount) = false := by
          refine ⟨?_, by simpa using h2, by omega, by simpa using h4⟩
          intro h; apply h1; simp [falsy, h]
        by_cases h5 : (List.filter (fun t => decide (t.fromAddress = some a))
            s.pendingTransactions).length > 0
        · simp only [h5, if_true]
          cases hr : reduceAdd (List.map (fun t => t.amount)
              (List.filter (fun t => decide (t.fromAddress = some a)) s.pendingTransactions)) with
          | error e => left; simp
          | ok total =>
            simp only []
            by_cases h6 : (s.getBalanceOfAddress a).lt (total.add (.finite tx.amount)) = true
            · left; simp [h6]
            · right
              refine ⟨a, hf, base.1, base.2.1, hv, base.2.2.1, base.2.2.2, ?_⟩
              intro total' hr'
              rw [hr] at hr'
              have := Except.ok.inj hr'
              subst this
              simpa using h6
        · right
          refine ⟨a, hf, base.1, base.2.1, hv, base.2.2.1, base.2.2.2, ?_⟩
          have hnil : List.filter (fun t => decide (t.fromAddress = some a))
              s.pendingTransactions = [] := by
            apply List.eq_nil_of_length_eq_zero; omega
          intro total hr
          rw [hnil] at hr
          simp [reduceAdd] at hr

theorem addTransaction_of_not_admissible (env : Runtime) (tx : Transaction) (s : Blockchain)
    (h : ¬ Admissible env tx s) :
    (s.addTransaction env tx).result ≠ .ok () ∧ (s.addTransaction env tx).state = s := by
  rcases addTransaction_cases env tx s with h1 | h1
  · exact h1
  · exact absurd h1 h

theorem addTransaction_ok_iff (env : Runtime) (tx : Transaction) (s : Blockchain) :
    (s.addTransaction env tx).result = .ok () ↔ Admissible env tx s := by
  constructor
  · intro h
    by_contra hn
    exact (addTransaction_of_not_admissible env tx s hn).1 h
  · intro h
    rw [addTransaction_of_admissible env tx s h]

theorem addTransaction_chain (env : Runtime) (tx : Transaction) (s : Blockchain) :
    (s.addTransaction env tx).state.chain = s.chain := by
  by_cases hadm : Admissible env tx s
  · rw [addTransaction_of_admissible env tx s hadm]
  · rw [(addTransaction_of_not_admissible env tx s hadm).2]

theorem addTransaction_balance (env : Runtime) (tx : Transaction) (s : Blockchain)
    (x : String) :
    (s.addTransaction env tx).state.getBalanceOfAddress x = s.getBalanceOfAddress x := by
  rw [getBalanceOfAddress_eq_foldl, getBalanceOfAddress_eq_foldl, addTransaction_chain]

theorem admissible_iff_exact (env : Runtime) (tx : Transaction) (s : Blockchain)
    (hc : chainVolume s.chain ≤ exactBound)
    (hp : volume s.pendingTransactions + tx.amount.natAbs ≤ exactBound) :
    Admissible env tx s ↔
      ∃ a, tx.fromAddress = some a ∧ a ≠ "" ∧ falsy tx.toAddress = false ∧
        tx.isValid env = .ok true ∧ 0 < tx.amount ∧ tx.amount ≤ replayBalance s.chain a ∧
        sentFrom a s.pendingTransactions + tx.amount ≤ replayBalance s.chain a := by
  have hfilter : ∀ a, volume (s.pendingTransactions.filter (fun t => t.fromAddress = some a))
      ≤ volume s.pendingTransactions := fun a => volume_filter_le _ _
  have hsum : ∀ a, (s.pendingTransactions.filter (fun t => t.fromAddress = some a)) ≠ [] →
      reduceAdd ((s.pendingTransactions.filter (fun t => t.fromAddress = some a)).map
        (fun t => t.amount)) = .ok (.finite (sentFrom a s.pendingTransactions)) ∧
      (JSNumber.finite (sentFrom a s.pendingTransactions)).add (.finite tx.amount)
        = .finite (sentFrom a s.pendingTransactions + tx.amount) := by
    intro a hne
    have hv := hfilter a
    obtain ⟨e, b⟩ := reduceAdd_exact ((s.pendingTransactions.filter
      (fun t => t.fromAddress = some a)).map (fun t => t.amount))
      (by simpa using hne) (by rw [map_amount_natAbs]; omega)
    rw [map_amount_natAbs] at b
    refine ⟨e, add_exact _ _ ?_⟩
    simp only [sentFrom, exactBound] at hp hv b ⊢
    omega
  constructor
  · rintro ⟨a, hf, ha, ht, hv, hpos, hbal, hpend⟩
    rw [getBalanceOfAddress_exact s a hc] at hbal hpend
    rw [lt_finite] at hbal
    have hle : tx.amount ≤ replayBalance s.chain a := by simpa using hbal
    refine ⟨a, hf, ha, ht, hv, hpos, hle, ?_⟩
    by_cases hne : (s.pendingTransactions.filter (fun t => t.fromAddress = some a)) = []
    · have : sentFrom a s.pendingTransactions = 0 := by simp [sentFrom, hne]
      omega
    · obtain ⟨e1, e2⟩ := hsum a hne
      have := hpend _ e1
      rw [e2, lt_finite] at this
      simpa using this
  · rintro ⟨a, hf, ha, ht, hv, hpos, hle, hpendle⟩
    refine ⟨a, hf, ha, ht, hv, hpos, ?_, ?_⟩
    · rw [getBalanceOfAddress_exact s a hc, lt_finite]
      simpa using hle
    · intro total hr
      by_cases hne : (s.pendingTransactions.filter (fun t => t.fromAddress = some a)) = []
      · rw [hne] at hr; simp [reduceAdd] at hr
      · obtain ⟨e1, e2⟩ := hsum a hne
        rw [e1] at hr
        have := Except.ok.inj hr
        subst this
        rw [e2, getBalanceOfAddress_exact s a hc, lt_finite]
        simpa using hpendle

/-! ## Balances across the two operations -/

theorem sentTo_nonneg (address : String) (txs : List Transaction)
    (h : ∀ tx ∈ txs, 0 ≤ tx.amount) : 0 ≤ sentTo address txs := by
  induction txs with
  | nil => simp [sentTo]
  | cons tx rest ih =>
    have h1 : 0 ≤ tx.amount := h tx (by simp)
    have h2 := ih (fun t ht => h t (by simp [ht]))
    simp only [sentTo, List.filter_cons] at h2 ⊢
    split
    · simp only [List.map_cons, List.sum_cons]; omega
    · exact h2

theorem sentFrom_nonneg (address : String) (txs : List Transaction)
    (h : ∀ tx ∈ txs, 0 ≤ tx.amount) : 0 ≤ sentFrom address txs := by
  induction txs with
  | nil => simp [sentFrom]
  | cons tx rest ih =>
    have h1 : 0 ≤ tx.amount := h tx (by simp)
    have h2 := ih (fun t ht => h t (by simp [ht]))
    simp only [sentFrom, List.filter_cons] at h2 ⊢
    split
    · simp only [List.map_cons, List.sum_cons]; omega
    · exact h2

theorem sentTo_reward (txNow : Int) (addr x : String) (s : Blockchain) :
    sentTo x [rewardTransaction txNow addr s] = if x = addr then s.miningReward else 0 := by
  by_cases hx : x = addr
  · simp [sentTo, rewardTransaction, Transaction.new, hx]
  · have : ¬ addr = x := fun e => hx e.symm
    simp [sentTo, rewardTransaction, Transaction.new, hx, this]

theorem sentFrom_reward (txNow : Int) (addr x : String) (s : Blockchain) :
    sentFrom x [rewardTransaction txNow addr s] = 0 := by
  simp [sentFrom, rewardTransaction, Transaction.new]

theorem volume_reward (txNow : Int) (addr : String) (s : Blockchain) :
    volume [rewardTransaction txNow addr s] = s.miningReward.natAbs := by
  simp [volume, rewardTransaction, Transaction.new]

theorem replay_after_mining (env : Runtime) (txNow blockNow : Int) (fuel : Nat)
    (addr : String) (s : Blockchain) (out : Outcome) (x : String)
    (h : s.minePendingTransactions env txNow blockNow fuel addr = some out)
    (hok : out.result = .ok ()) :
    replayBalance out.state.chain x
        = replayBalance s.chain x + sentTo x s.pendingTransactions
          - sentFrom x s.pendingTransactions + (if x = addr then s.miningReward else 0) ∧
      chainVolume out.state.chain
        = chainVolume s.chain + volume s.pendingTransactions + s.miningReward.natAbs := by
  obtain ⟨latest, B, -, hout, htx, -, -⟩ :=
    minePendingTransactions_ok env txNow blockNow fuel addr s out h hok
  subst hout
  simp only [replayBalance_append, chainVolume_append, htx, netAmount_eq, sentTo_append,
    sentFrom_append, volume_append, sentTo_reward, sentFrom_reward, volume_reward]
  constructor <;> omega

theorem balance_after_mining (env : Runtime) (txNow blockNow : Int) (fuel : Nat)
    (addr : String) (s : Blockchain) (out : Outcome) (x : String)
    (hb : chainVolume s.chain + volume s.pendingTransactions + s.miningReward.natAbs
      ≤ exactBound)
    (h : s.minePendingTransactions env txNow blockNow fuel addr = some out)
    (hok : out.result = .ok ()) :
    s.getBalanceOfAddress x = .finite (replayBalance s.chain x) ∧
      out.state.getBalanceOfAddress x
        = .finite (replayBalance s.chain x + sentTo x s.pendingTransactions
            - sentFrom x s.pendingTransactions + (if x = addr then s.miningReward else 0)) := by
  obtain ⟨h1, h2⟩ := replay_after_mining env txNow blockNow fuel addr s out x h hok
  refine ⟨getBalanceOfAddress_exact s x (by omega), ?_⟩
  rw [getBalanceOfAddress_exact out.state x (by omega), h1]

/-! ## The invariant on amounts -/

theorem ledgerInv_fresh (env : Runtime) : LedgerInv (Blockchain.new env) := by
  refine ⟨by simp [Blockchain.new], by simp [Blockchain.new], by simp [Blockchain.new], ?_⟩
  intro _ a
  simp [Blockchain.new, sentFrom, replayBalance, createGenesisBlock, Block.new]

theorem ledgerInv_add (env : Runtime) (tx : Transaction) (s : Blockchain) (h : LedgerInv s) :
    LedgerInv (s.addTransaction env tx).state := by
  by_cases hadm : Admissible env tx s
  · rw [addTransaction_of_admissible env tx s hadm]
    obtain ⟨h1, h2, h3, h4⟩ := h
    have hpos : 0 < tx.amount := by
      obtain ⟨a, -, -, -, -, hpos, -, -⟩ := hadm
      exact hpos
    refine ⟨h1, h2, ?_, ?_⟩
    · intro t ht
      simp only [List.mem_append, List.mem_singleton] at ht
      rcases ht with ht | ht
      · exact h3 t ht
      · rw [ht]; omega
    · intro hb b
      simp only [volume_append, volume_cons] at hb
      have hv0 : volume ([] : List Transaction) = 0 := rfl
      rw [hv0] at hb
      obtain ⟨a, hf, -, -, -, -, -, hpend⟩ :=
        (admissible_iff_exact env tx s (by omega) (by omega)).mp hadm
      have h5 := h4 (by omega) b
      simp only [sentFrom_append]
      by_cases hba : b = a
      · subst hba
        have : sentFrom b [tx] = tx.amount := by simp [sentFrom, hf]
        rw [this]; exact hpend
      · have : sentFrom b [tx] = 0 := by
          have : ¬ a = b := fun e => hba e.symm
          simp [sentFrom, hf, this]
        rw [this]; simpa using h5
  · rw [(addTransaction_of_not_admissible env tx s hadm).2]; exact h

theorem ledgerInv_mine (env : Runtime) (txNow blockNow : Int) (fuel : Nat) (addr : String)
    (s : Blockchain) (out : Outcome) (h : LedgerInv s)
    (hm : s.minePendingTransactions env txNow blockNow fuel addr = some out) :
    LedgerInv out.state := by
  obtain ⟨h1, h2, h3, h4⟩ := h
  rcases minePendingTransactions_cases env txNow blockNow fuel addr s out hm with
    ⟨-, -, hst⟩ | ⟨-, latest, B, -, hout, -, -, -⟩
  · rw [hst]
    refine ⟨h1, h2, ?_, ?_⟩
    · intro t ht
      simp only [List.mem_append, List.mem_singleton] at ht
      rcases ht with ht | ht
      · exact h3 t ht
      · rw [ht]; simpa [rewardTransaction, Transaction.new] using h2
    · intro hb a
      simp only [volume_append, volume_reward] at hb
      simp only [sentFrom_append, sentFrom_reward]
      simpa using h4 (by omega) a
  · have hok : out.result = .ok () := by rw [hout]
    refine ⟨?_, ?_, ?_, ?_⟩
    · rw [hout]; simp
    · rw [hout]; exact h2
    · rw [hout]; simp
    · intro hb a
      obtain ⟨e1, e2⟩ := replay_after_mining env txNow blockNow fuel addr s out a hm hok
      rw [e2] at hb
      rw [e1]
      have hp : out.state.pendingTransactions = [] := by rw [hout]
      rw [hp]
      have h5 := h4 (by omega) a
      have h6 := sentTo_nonneg a s.pendingTransactions h3
      have h7 : (0 : Int) ≤ if a = addr then s.miningReward else 0 := by
        split
        · exact h2
        · exact le_refl 0
      have h8 : sentFrom a ([] : List Transaction) = 0 := rfl
      rw [h8]
      omega

theorem ledgerInv_setMiningReward (reward : Int) (s : Blockchain) (h : LedgerInv s)
    (hr : 0 ≤ reward) : LedgerInv (s.setMiningReward reward) := by
  obtain ⟨h1, -, h3, h4⟩ := h
  exact ⟨h1, hr, h3, h4⟩

theorem reachableWithRewards_ledgerInv (env : Runtime) (s : Blockchain)
    (h : ReachableWithRewards env s) : LedgerInv s := by
  induction h with
  | fresh => exact ledgerInv_fresh env
  | add s tx _ ih => exact ledgerInv_add env tx s ih
  | mine s txNow blockNow fuel addr out _ hm ih =>
    exact ledgerInv_mine env txNow blockNow fuel addr s out ih hm
  | setMiningReward s reward _ hr ih => exact ledgerInv_setMiningReward reward s ih hr

theorem reachable_withRewards (env : Runtime) (s : Blockchain) (h : Reachable env s) :
    ReachableWithRewards env s := by
  induction h with
  | fresh => exact ReachableWithRewards.fresh
  | add s tx _ ih => exact ReachableWithRewards.add s tx ih
  | mine s txNow blockNow fuel addr out _ hm ih =>
    exact ReachableWithRewards.mine s txNow blockNow fuel addr out ih hm

theorem reachable_ledgerInv (env : Runtime) (s : Blockchain) (h : Reachable env s) :
    LedgerInv s :=
  reachableWithRewards_ledgerInv env s (reachable_withRewards env s h)

theorem ledgerInv_exact (s : Blockchain) (h : LedgerInv s)
    (hb : chainVolume s.chain + volume s.pendingTransactions ≤ exactBound) (x : String) :
    s.getBalanceOfAddress x = .finite (replayBalance s.chain x) ∧
      0 ≤ sentFrom x s.pendingTransactions ∧
      sentFrom x s.pendingTransactions ≤ replayBalance s.chain x :=
  ⟨getBalanceOfAddress_exact s x (by omega), sentFrom_nonneg x _ h.2.2.1, h.2.2.2 hb x⟩

theorem reachable_ledgerOneBlock : Reachable toyRuntime ledgerOneBlock :=
  Reachable.mine (Blockchain.new toyRuntime) 1 2 2 "A" ⟨.ok (), ledgerOneBlock⟩ Reachable.fresh
    (by decide)

/-! ## Signing and verification -/

theorem string_length_eq_zero (s : String) : s.length = 0 ↔ s = "" := by
  constructor
  · intro h
    cases s with
    | mk d =>
      have hd : d = [] := List.eq_nil_of_length_eq_zero h
      subst hd; rfl
  · intro h; subst h; rfl

theorem calculateHash_of_sender (env : Runtime) (tx : Transaction) (a : String)
    (h : tx.fromAddress = some a) :
    tx.calculateHash env
      = .ok (env.sha256 (a ++ jsString tx.toAddress ++ toString tx.amount
          ++ toString tx.timestamp)) := by
  simp [Transaction.calculateHash, Transaction.hashInput, h, jsString]

theorem toy_signature_ne_empty (priv msg : String) : toyRuntime.ecSign priv msg ≠ "" := by
  intro h
  have h2 := congrArg String.length h
  simp only [toyRuntime, String.length_append] at h2
  have h3 : ":".length = 1 := rfl
  have h4 : "".length = 0 := rfl
  omega

/-! ## The exit of the mining loop -/

theorem needsMoreWork_eq_false_iff (d : Nat) (hash : String) :
    needsMoreWork d hash = false ↔ ∃ rest, hash.data = List.replicate d '0' ++ rest := by
  simp only [needsMoreWork, bne_eq_false_iff_eq]
  constructor
  · intro h
    exact ⟨hash.data.drop d, by rw [← h, List.take_append_drop]⟩
  · rintro ⟨rest, h⟩
    rw [h, List.take_left']
    simp

theorem needsMoreWork_zero (hash : String) : needsMoreWork 0 hash = false := by
  simp [needsMoreWork]

theorem mineBlock_exit (env : Runtime) (d : Nat) :
    ∀ (fuel : Nat) (b b' : Block), Block.mineBlock env d fuel b = some b' →
      needsMoreWork d b'.hash = false := by
  intro fuel
  induction fuel with
  | zero => intro b b' h; simp [Block.mineBlock] at h
  | succ n ih =>
    intro b b' h
    unfold Block.mineBlock at h
    split at h
    · exact ih _ _ h
    · rename_i hn
      simp only [Option.some.injEq] at h
      subst h
      simpa using hn

theorem mineBlock_consistent (env : Runtime) (d : Nat) :
    ∀ (fuel : Nat) (b b' : Block), Block.mineBlock env d fuel b = some b' →
      b' = b ∨ b'.hash = b'.calculateHash env := by
  intro fuel
  induction fuel with
  | zero => intro b b' h; simp [Block.mineBlock] at h
  | succ n ih =>
    intro b b' h
    unfold Block.mineBlock at h
    split at h
    · right
      rcases ih _ _ h with h1 | h1
      · rw [h1]; rfl
      · exact h1
    · simp only [Option.some.injEq] at h
      exact Or.inl h.symm

/-! ## Validation of a chain -/

theorem updateAt_two_le {α : Type} (f : α → α) (i : Nat) (h : 2 ≤ i) (x y : α) (rest : List α) :
    updateAt f i (x :: y :: rest) = x :: y :: updateAt f (i - 2) rest := by
  obtain ⟨k, rfl⟩ : ∃ k, i = k + 2 := ⟨i - 2, by omega⟩
  simp [updateAt]

theorem isChainValid_tamperAmount (env : Runtime) (s : Blockchain) (i j : Nat) (amount : Int)
    (h : 2 ≤ i) : (s.tamperAmount i j amount).isChainValid env = s.isChainValid env := by
  obtain ⟨k, rfl⟩ : ∃ k, i = k + 2 := ⟨i - 2, by omega⟩
  cases hc : s.chain with
  | nil => simp [Blockchain.isChainValid, Blockchain.tamperAmount, hc, updateAt]
  | cons g rest =>
    cases rest with
    | nil =>
      simp [Blockchain.isChainValid, Blockchain.tamperAmount, hc, updateAt, isChainValidBody]
    | cons b1 rest =>
      simp [Blockchain.isChainValid, Blockchain.tamperAmount, hc, updateAt, isChainValidBody]

theorem reachable_ledgerTwoBlocks : Reachable toyRuntime ledgerTwoBlocks :=
  Reachable.mine ledgerPendingForty 4 5 2 "A" ⟨.ok (), ledgerTwoBlocks⟩
    (Reachable.add _ _ reachable_ledgerOneBlock) (by decide)

theorem needsMoreWork_length (d : Nat) (hash : String) (h : needsMoreWork d hash = false) :
    d ≤ hash.length := by
  obtain ⟨rest, hr⟩ := (needsMoreWork_eq_false_iff d hash).mp h
  have := congrArg List.length hr
  simp only [List.length_append, List.length_replicate] at this
  have hl : hash.length = hash.data.length := rfl
  omega

theorem isChainValid_first_block_unmined (env : Runtime) (d fuel : Nat) (txNow blockNow : Int)
    (addr : String)
    (hmeet : needsMoreWork d
      (candidateBlock env txNow blockNow addr ((Blockchain.new env).setDifficulty d)
        (createGenesisBlock env)).hash = false) :
    ∃ out, ((Blockchain.new env).setDifficulty d).minePendingTransactions env txNow blockNow
        (fuel + 1) addr = some out ∧ out.result = .ok () ∧
      out.state.chain = [createGenesisBlock env,
        candidateBlock env txNow blockNow addr ((Blockchain.new env).setDifficulty d)
          (createGenesisBlock env)] ∧
      ((candidateBlock env txNow blockNow addr ((Blockchain.new env).setDifficulty d)
          (createGenesisBlock env)).hash
        ≠ (candidateBlock env txNow blockNow addr ((Blockchain.new env).setDifficulty d)
          (createGenesisBlock env)).calculateHash env →
        out.state.isChainValid env = .ok false) := by
  have hm := mineBlock_done env d fuel _ hmeet
  have hlim : d ≤ env.joinLimit :=
    le_trans (needsMoreWork_length d _ hmeet) (env.sha256_le _)
  refine ⟨Outcome.mk (.ok ())
    { (Blockchain.new env).setDifficulty d with
      chain := ((Blockchain.new env).setDifficulty d).chain ++
        [candidateBlock env txNow blockNow addr ((Blockchain.new env).setDifficulty d)
          (createGenesisBlock env)],
      pendingTransactions := [] }, ?_, rfl, ?_, ?_⟩
  · unfold Blockchain.minePendingTransactions
    have hl : ((Blockchain.new env).setDifficulty d).getLatestBlock
        = some (createGenesisBlock env) := by
      simp [Blockchain.getLatestBlock, Blockchain.new, Blockchain.setDifficulty]
    rw [hl]
    simp only [candidateBlock, rewardTransaction] at hm
    have hd : ((Blockchain.new env).setDifficulty d).difficulty = d := rfl
    simp only [hd, hm]
    rw [if_neg (by omega)]
    rfl
  · simp [Blockchain.new, Blockchain.setDifficulty]
  · intro hne
    simp only [Blockchain.isChainValid, Blockchain.new, Blockchain.setDifficulty,
      List.cons_append, List.nil_append, List.getElem?_cons_zero, ne_eq, not_true_eq_false,
      if_false, isChainValidBody, List.getElem?_cons_succ]
    have hv : (candidateBlock env txNow blockNow addr
        { chain := [createGenesisBlock env], difficulty := d, pendingTransactions := [],
          miningReward := 100 } (createGenesisBlock env)).hasValidTransactions env = .ok true := by
      simp [Block.hasValidTransactions, candidateBlock, Block.new, hasValidTransactionsLoop,
        rewardTransaction, Transaction.new, Transaction.isValid]
    simp only [Blockchain.new, Blockchain.setDifficulty] at hne
    simp [hv, hne]

/-! ## Invariants of reachable ledgers -/

theorem linked_append (chain : List Block) (latest B : Block) (h : Linked chain)
    (hl : chain.getLast? = some latest) (hB : B.previousHash = latest.hash) :
    Linked (chain ++ [B]) := by
  intro i b c hb hc
  rcases Nat.lt_trichotomy (i + 1) chain.length with hlt | heq | hgt
  · rw [List.getElem?_append_left (by omega)] at hb
    rw [List.getElem?_append_left hlt] at hc
    exact h i b c hb hc
  · rw [List.getElem?_append_left (by omega)] at hb
    rw [List.getElem?_append_right (by omega)] at hc
    have hi : i = chain.length - 1 := by omega
    rw [List.getLast?_eq_getElem?, ← hi, hb] at hl
    have hbl : b = latest := Option.some.inj hl
    have hz : i + 1 - chain.length = 0 := by omega
    rw [hz] at hc
    simp only [List.getElem?_cons_zero, Option.some.injEq] at hc
    rw [← hc, hbl]; exact hB
  · rw [List.getElem?_append_right (by omega)] at hc
    have hz : i + 1 - chain.length = (i - chain.length) + 1 := by omega
    rw [hz] at hc
    simp at hc

theorem hasValidTransactionsLoop_true_iff (env : Runtime) (txs : List Transaction) :
    hasValidTransactionsLoop env txs = .ok true ↔ ∀ tx ∈ txs, tx.isValid env = .ok true := by
  induction txs with
  | nil => simp [hasValidTransactionsLoop]
  | cons tx rest ih =>
    unfold hasValidTransactionsLoop
    cases hv : tx.isValid env with
    | error e => simp [hv]
    | ok v =>
      cases v with
      | false => simp [hv]
      | true => simp [hv, ih]

theorem hasValidTransactionsLoop_false (env : Runtime) (pre post : List Transaction)
    (t : Transaction) (hpre : ∀ tx ∈ pre, ∃ v, tx.isValid env = .ok v)
    (ht : t.isValid env = .ok false) :
    hasValidTransactionsLoop env (pre ++ t :: post) = .ok false := by
  induction pre with
  | nil => simp [hasValidTransactionsLoop, ht]
  | cons tx rest ih =>
    obtain ⟨v, hv⟩ := hpre tx (by simp)
    have ih2 := ih (fun x hx => hpre x (by simp [hx]))
    cases v with
    | false => simp [hasValidTransactionsLoop, hv]
    | true => simpa [hasValidTransactionsLoop, hv] using ih2

theorem isValid_true_cases (env : Runtime) (tx : Transaction) (h : tx.isValid env = .ok true) :
    tx.fromAddress = none ∨
      ∃ a sig hsh, tx.fromAddress = some a ∧ tx.signature = some sig ∧
        tx.calculateHash env = .ok hsh ∧ env.ecVerify a hsh sig = .ok true := by
  unfold Transaction.isValid at h
  cases hf : tx.fromAddress with
  | none => exact Or.inl rfl
  | some a =>
    right
    rw [hf] at h
    simp only at h
    cases hs : tx.signature with
    | none => rw [hs] at h; simp at h
    | some sig =>
      rw [hs] at h
      simp only at h
      split at h
      · simp at h
      · cases hc : tx.calculateHash env with
        | error e => rw [hc] at h; simp at h
        | ok hsh =>
          rw [hc] at h
          exact ⟨a, sig, hsh, rfl, rfl, rfl, h⟩

theorem isValid_reward (env : Runtime) (txNow : Int) (addr : String) (s : Blockchain) :
    (rewardTransaction txNow addr s).isValid env = .ok true := by
  simp [rewardTransaction, Transaction.new, Transaction.isValid]

theorem commitInv_fresh (env : Runtime) : CommitInv env (Blockchain.new env) := by
  refine ⟨⟨[], rfl⟩, ?_, ?_, ?_⟩
  · intro i b c _ hc
    simp [Blockchain.new] at hc
  · intro b hb tx htx
    simp only [Blockchain.new, List.mem_singleton] at hb
    subst hb
    simp [createGenesisBlock, Block.new] at htx
  · intro tx htx
    simp [Blockchain.new] at htx

theorem commitInv_add (env : Runtime) (tx : Transaction) (s : Blockchain)
    (h : CommitInv env s) : CommitInv env (s.addTransaction env tx).state := by
  by_cases hadm : Admissible env tx s
  · rw [addTransaction_of_admissible env tx s hadm]
    obtain ⟨a, hf, -, ht, hv, -, -, -⟩ := hadm
    obtain ⟨h1, h2, h3, h4⟩ := h
    refine ⟨h1, h2, h3, ?_⟩
    intro t htm
    simp only [List.mem_append, List.mem_singleton] at htm
    rcases htm with htm | htm
    · exact h4 t htm
    · subst htm
      refine ⟨hv, ?_⟩
      cases hto : t.toAddress with
      | none => rw [hto] at ht; simp [falsy] at ht
      | some r => exact ⟨r, rfl⟩
  · rw [(addTransaction_of_not_admissible env tx s hadm).2]; exact h

theorem commitInv_mine (env : Runtime) (txNow blockNow : Int) (fuel : Nat) (addr : String)
    (s : Blockchain) (out : Outcome) (h : CommitInv env s)
    (hm : s.minePendingTransactions env txNow blockNow fuel addr = some out) :
    CommitInv env out.state := by
  obtain ⟨⟨rest, h1⟩, h2, h3, h4⟩ := h
  rcases minePendingTransactions_cases env txNow blockNow fuel addr s out hm with
    ⟨-, -, hst⟩ | ⟨-, latest, B, hl, hout, htx, hprev, -⟩
  · rw [hst]
    refine ⟨⟨rest, h1⟩, h2, h3, ?_⟩
    intro tx htxm
    simp only [List.mem_append, List.mem_singleton] at htxm
    rcases htxm with htxm | htxm
    · exact h4 tx htxm
    · subst htxm
      exact ⟨isValid_reward env txNow addr s, addr, rfl⟩
  · subst hout
    refine ⟨⟨rest ++ [B], by simp [h1]⟩, linked_append s.chain latest B h2 hl hprev, ?_, ?_⟩
    · intro b hb tx htxm
      simp only [List.mem_append, List.mem_singleton] at hb
      rcases hb with hb | hb
      · exact h3 b hb tx htxm
      · subst hb
        rw [htx] at htxm
        simp only [List.mem_append, List.mem_singleton] at htxm
        rcases htxm with htxm | htxm
        · exact (h4 tx htxm).1
        · subst htxm
          exact isValid_reward env txNow addr s
    · intro tx htxm
      simp at htxm

theorem reachableWithSettings_commitInv (env : Runtime) (s : Blockchain)
    (h : ReachableWithSettings env s) : CommitInv env s := by
  induction h with
  | fresh => exact commitInv_fresh env
  | add s tx _ ih => exact commitInv_add env tx s ih
  | mine s txNow blockNow fuel addr out _ hm ih =>
    exact commitInv_mine env txNow blockNow fuel addr s out ih hm
  | setDifficulty s d _ ih => exact ih
  | setMiningReward s r _ ih => exact ih

theorem reachable_withSettings (env : Runtime) (s : Blockchain) (h : Reachable env s) :
    ReachableWithSettings env s := by
  induction h with
  | fresh => exact ReachableWithSettings.fresh
  | add s tx _ ih => exact ReachableWithSettings.add s tx ih
  | mine s txNow blockNow fuel addr out _ hm ih =>
    exact ReachableWithSettings.mine s txNow blockNow fuel addr out ih hm

theorem reachableWithSettings_ledgerDifficultyZero :
    ReachableWithSettings toyRuntime ledgerDifficultyZero :=
  ReachableWithSettings.mine ((Blockchain.new toyRuntime).setDifficulty 0) 1 2 1 "A"
    ⟨.ok (), ledgerDifficultyZero⟩
    (ReachableWithSettings.setDifficulty _ 0 ReachableWithSettings.fresh) (by decide)

/-! ## Sums of balances over a set of addresses -/

theorem sentTo_cons (x : String) (tx : Transaction) (rest : List Transaction) :
    sentTo x (tx :: rest)
      = (if tx.toAddress = some x then tx.amount else 0) + sentTo x rest := by
  simp only [sentTo, List.filter_cons]
  by_cases h : tx.toAddress = some x <;> simp [h]

theorem sentFrom_cons (x : String) (tx : Transaction) (rest : List Transaction) :
    sentFrom x (tx :: rest)
      = (if tx.fromAddress = some x then tx.amount else 0) + sentFrom x rest := by
  simp only [sentFrom, List.filter_cons]
  by_cases h : tx.fromAddress = some x <;> simp [h]

theorem sum_sentTo (S : Finset String) (txs : List Transaction)
    (h : ∀ tx ∈ txs, ∃ t, tx.toAddress = some t ∧ t ∈ S) :
    S.sum (fun x => sentTo x txs) = totalAmount txs := by
  induction txs with
  | nil => simp [sentTo, totalAmount]
  | cons tx rest ih =>
    obtain ⟨t, ht, htS⟩ := h tx (by simp)
    have ih2 := ih (fun x hx => h x (by simp [hx]))
    simp only [sentTo_cons, Finset.sum_add_distrib, ih2, ht, Option.some.injEq,
      Finset.sum_ite_eq, htS, if_true, totalAmount, List.map_cons, List.sum_cons]

theorem sum_sentFrom (S : Finset String) (txs : List Transaction)
    (h : ∀ tx ∈ txs, ∃ a, tx.fromAddress = some a ∧ a ∈ S) :
    S.sum (fun x => sentFrom x txs) = totalAmount txs := by
  induction txs with
  | nil => simp [sentFrom, totalAmount]
  | cons tx rest ih =>
    obtain ⟨a, ha, haS⟩ := h tx (by simp)
    have ih2 := ih (fun x hx => h x (by simp [hx]))
    simp only [sentFrom_cons, Finset.sum_add_distrib, ih2, ha, Option.some.injEq,
      Finset.sum_ite_eq, haS, if_true, totalAmount, List.map_cons, List.sum_cons]

theorem sum_replay_after_mining (env : Runtime) (txNow blockNow : Int) (fuel : Nat)
    (r : String) (s : Blockchain) (out : Outcome) (S : Finset String) (hinv : CommitInv env s)
    (hsend : ∀ tx ∈ s.pendingTransactions, ∃ a, tx.fromAddress = some a)
    (hr : r ∈ S)
    (hS : ∀ tx ∈ s.pendingTransactions, ∀ a,
      tx.fromAddress = some a ∨ tx.toAddress = some a → a ∈ S)
    (hm : s.minePendingTransactions env txNow blockNow fuel r = some out)
    (hok : out.result = .ok ()) :
    S.sum (fun x => replayBalance out.state.chain x)
      = S.sum (fun x => replayBalance s.chain x) + s.miningReward := by
  obtain ⟨-, -, -, h4⟩ := hinv
  have hbal := fun x => (replay_after_mining env txNow blockNow fuel r s out x hm hok).1
  simp only [hbal, Finset.sum_add_distrib, Finset.sum_sub_distrib]
  have hto := sum_sentTo S s.pendingTransactions (fun tx htx => by
    obtain ⟨t, ht⟩ := (h4 tx htx).2
    exact ⟨t, ht, hS tx htx t (Or.inr ht)⟩)
  have hfrom := sum_sentFrom S s.pendingTransactions (fun tx htx => by
    obtain ⟨a, ha⟩ := hsend tx htx
    exact ⟨a, ha, hS tx htx a (Or.inl ha)⟩)
  have hrew : S.sum (fun x => if x = r then s.miningReward else 0) = s.miningReward := by
    rw [Finset.sum_ite_eq']; simp [hr]
  rw [hto, hfrom, hrew]; omega

/-! ## Reachability of the ledgers of the evaluations -/

theorem reachableWithRewards_ledgerLargeReward :
    ReachableWithRewards toyRuntime ledgerLargeReward :=
  ReachableWithRewards.mine ((Blockchain.new toyRuntime).setMiningReward 9007199254740992)
    1 2 2 "A" ⟨.ok (), ledgerLargeReward⟩
    (ReachableWithRewards.setMiningReward (Blockchain.new toyRuntime) 9007199254740992
      ReachableWithRewards.fresh (by decide))
    (by decide)

theorem reachableWithRewards_ledgerOverPending :
    ReachableWithRewards toyRuntime ledgerOverPending :=
  ReachableWithRewards.add ledgerAllPending (signedTransfer 4 (some "B") 1)
    (ReachableWithRewards.add ledgerLargeReward (signedTransfer 3 (some "B") 9007199254740992)
      reachableWithRewards_ledgerLargeReward)

theorem reachableWithRewards_ledgerOverdrawn :
    ReachableWithRewards toyRuntime ledgerOverdrawn :=
  ReachableWithRewards.mine ledgerOverPending 5 6 2 "M" ⟨.ok (), ledgerOverdrawn⟩
    reachableWithRewards_ledgerOverPending (by decide)

theorem reachableWithSettings_of_rewards (env : Runtime) (s : Blockchain)
    (h : ReachableWithRewards env s) : ReachableWithSettings env s := by
  induction h with
  | fresh => exact ReachableWithSettings.fresh
  | add s tx _ ih => exact ReachableWithSettings.add s tx ih
  | mine s txNow blockNow fuel addr out _ hm ih =>
    exact ReachableWithSettings.mine s txNow blockNow fuel addr out ih hm
  | setMiningReward s reward _ _ ih => exact ReachableWithSettings.setMiningReward s reward ih

theorem reachableWithSettings_ledgerRaisedReset :
    ReachableWithSettings toyRuntime ledgerRaisedReset :=
  ReachableWithSettings.setDifficulty ledgerRaised 1
    (ReachableWithSettings.mine ledgerLargeDifficulty 1 2 2 "A"
      ⟨.error .rangeError, ledgerRaised⟩
      (ReachableWithSettings.setDifficulty _ 4294967295 ReachableWithSettings.fresh)
      (by decide))

/-! ## Chain validation (C1, C2) -/

/-- C1 (the code departs from the claim). `isChainValid` inspects the genesis block and
the block at index 1 only: its result is the same whatever blocks follow index 1. On the
ledger `tamperedLedger`, built by the ledger's own operations and then altered in the
block at index 3, it returns `true` although that block holds a transaction that does not
verify and its stored hash differs from its recomputed hash. -/
theorem isChainValid_inspects_only_first_block :
    (∀ (env : Runtime) (g b1 : Block) (rest : List Block) (d : Nat) (p : List Transaction)
        (r : Int),
        Blockchain.isChainValid env
            { chain := g :: b1 :: rest, difficulty := d, pendingTransactions := p,
              miningReward := r }
          = Blockchain.isChainValid env
            { chain := [g, b1], difficulty := d, pendingTransactions := p,
              miningReward := r }) ∧
      (tamperedLedger.isChainValid toyRuntime = .ok true ∧
        ∃ b, tamperedLedger.chain[3]? = some b ∧
          b.hasValidTransactions toyRuntime = .ok false ∧
          b.hash ≠ b.calculateHash toyRuntime) := by
  refine ⟨?_, by decide, ?_⟩
  · intro env g b1 rest d p r
    simp [Blockchain.isChainValid, isChainValidBody]
  · exact ⟨_, rfl, by decide, by decide⟩

/-- C2 (the code departs from the claim). On a fresh ledger, whose chain holds only the
genesis block, `isChainValid` does not return a boolean: the loop reads `this.chain[1]`,
which is `undefined`, and the call of its method raises a `TypeError`. -/
theorem isChainValid_fresh_throws (env : Runtime) :
    (Blockchain.new env).isChainValid env = .error .typeError := by
  simp [Blockchain.isChainValid, Blockchain.new, isChainValidBody]

/-! ## Admission (C3, C4) -/

/-- C3, the claim as stated fails, in both directions. On the ledger where "A" holds 100,
a correctly signed transfer of 10 from "A" to the empty string is rejected by
`addTransaction`, although neither address is absent (`null`), the signature verifies,
the amount is positive and covered by the balance, and nothing is pending. And on the
ledger where "A" holds 2^53 and has 2^53 pending, a transfer of 1 from "A" is admitted,
although the pending amounts plus 1 exceed the balance: the method rounds 2^53 + 1 to
2^53. -/
theorem addTransaction_empty_recipient_rejected :
    ¬ ((ledgerOneBlock.addTransaction toyRuntime (signedTransfer 3 (some "") 10)).result ≠ .ok ()
        ↔ ((signedTransfer 3 (some "") 10).fromAddress = none ∨
          (signedTransfer 3 (some "") 10).toAddress = none ∨
          (signedTransfer 3 (some "") 10).isValid toyRuntime ≠ .ok true ∨
          (signedTransfer 3 (some "") 10).amount ≤ 0 ∨
          ∃ a v, (signedTransfer 3 (some "") 10).fromAddress = some a ∧
            ledgerOneBlock.getBalanceOfAddress a = .finite v ∧
            (v < (signedTransfer 3 (some "") 10).amount ∨
              sentFrom a ledgerOneBlock.pendingTransactions
                + (signedTransfer 3 (some "") 10).amount > v))) ∧
      ((ledgerAllPending.addTransaction toyRuntime (signedTransfer 4 (some "B") 1)).result
          = .ok () ∧
        ledgerAllPending.getBalanceOfAddress "A" = .finite 9007199254740992 ∧
        sentFrom "A" ledgerAllPending.pendingTransactions
          + (signedTransfer 4 (some "B") 1).amount > 9007199254740992) := by
  refine ⟨?_, by decide, by decide, by decide⟩
  intro h
  have hl : (ledgerOneBlock.addTransaction toyRuntime (signedTransfer 3 (some "") 10)).result
      ≠ .ok () := by decide
  rcases h.mp hl with h1 | h1 | h1 | h1 | ⟨a, v, ha, hv, h1⟩
  · exact absurd h1 (by decide)
  · exact absurd h1 (by decide)
  · exact absurd h1 (by decide)
  · exact absurd h1 (by decide)
  · have ha' : a = "A" := by
      have : (signedTransfer 3 (some "") 10).fromAddress = some "A" := by decide
      rw [this] at ha; exact (Option.some.inj ha).symm
    subst ha'
    have hb : ledgerOneBlock.getBalanceOfAddress "A" = .finite 100 := by decide
    rw [hb] at hv
    have hv' : v = 100 := (JSNumber.finite.inj hv).symm
    subst hv'
    exact absurd h1 (by decide)

/-- C3, amended: on a ledger whose chain has a volume within 2^53 and whose pool, together
with the amount of the transaction, has a volume within 2^53 (so that no sum of the
method is rounded), `addTransaction` fails if and only if the sender is absent or the
empty string, or the recipient is absent or the empty string, or `isValid` does not
return `true`, or the amount is not positive, or the sender's balance is below the amount,
or the sender's pending amounts plus the amount exceed the sender's balance. In every
other case it succeeds and the transaction is appended to `pendingTransactions`, the rest
of the ledger being unchanged. The balance of every address is then the exact replayed
sum. -/
theorem addTransaction_fails_iff (env : Runtime) (tx : Transaction) (s : Blockchain)
    (hc : chainVolume s.chain ≤ exactBound)
    (hp : volume s.pendingTransactions + tx.amount.natAbs ≤ exactBound) :
    ((s.addTransaction env tx).result ≠ .ok () ↔
      ((tx.fromAddress = none ∨ tx.fromAddress = some "") ∨
        (tx.toAddress = none ∨ tx.toAddress = some "") ∨
        tx.isValid env ≠ .ok true ∨
        tx.amount ≤ 0 ∨
        ∃ a v, tx.fromAddress = some a ∧ s.getBalanceOfAddress a = .finite v ∧
          (v < tx.amount ∨ sentFrom a s.pendingTransactions + tx.amount > v))) ∧
      ((s.addTransaction env tx).result = .ok () →
        (s.addTransaction env tx).state =
          { s with pendingTransactions := s.pendingTransactions ++ [tx] }) ∧
      (∀ a, s.getBalanceOfAddress a = .finite (replayBalance s.chain a)) := by
  have hbal : ∀ a, s.getBalanceOfAddress a = .finite (replayBalance s.chain a) :=
    fun a => getBalanceOfAddress_exact s a hc
  refine ⟨?_, ?_, hbal⟩
  · rw [Ne, addTransaction_ok_iff, admissible_iff_exact env tx s hc hp]
    constructor
    · intro h
      by_contra hn
      simp only [not_or, not_exists, not_and, not_lt, not_le, ne_eq, not_not] at hn
      obtain ⟨⟨hf1, hf2⟩, ⟨ht1, ht2⟩, hv, hpos, hb⟩ := hn
      cases hf : tx.fromAddress with
      | none => exact hf1 hf
      | some a =>
        have hb' := hb a (replayBalance s.chain a) hf (hbal a)
        apply h
        refine ⟨a, hf, ?_, ?_, hv, hpos, hb'.1, by omega⟩
        · intro ha; apply hf2; rw [hf, ha]
        · cases ht : tx.toAddress with
          | none => exact absurd ht ht1
          | some t =>
            have : t ≠ "" := by intro h0; apply ht2; rw [ht, h0]
            simpa [falsy] using this
    · intro h hadm
      obtain ⟨a, hf, ha, ht, hv, hpos, hle, hpend⟩ := hadm
      rcases h with (h | h) | (h | h) | h | h | ⟨b, v, hb, hv', h⟩
      · rw [hf] at h; exact absurd h (by simp)
      · rw [hf] at h; exact ha (Option.some.inj h)
      · rw [h] at ht; simp [falsy] at ht
      · rw [h] at ht; simp [falsy] at ht
      · exact h hv
      · omega
      · rw [hf] at hb
        have := Option.some.inj hb
        subst this
        rw [hbal a] at hv'
        have := JSNumber.finite.inj hv'
        subst this
        omega
  · intro hok
    rw [addTransaction_of_admissible env tx s ((addTransaction_ok_iff env tx s).mp hok)]

/-- Witness of C3: on the ledger where "A" holds 100 with 60 pending, all volumes are
small, and a second transfer of 60 from "A" fails, the pending 60 plus the new 60
exceeding the balance 100. -/
theorem addTransaction_fails_iff_witness :
    chainVolume ledgerPendingSixty.chain ≤ exactBound ∧
      volume ledgerPendingSixty.pendingTransactions
        + (signedTransfer 9 (some "B") 60).amount.natAbs ≤ exactBound ∧
      (ledgerPendingSixty.addTransaction toyRuntime (signedTransfer 9 (some "B") 60)).result
        ≠ .ok () :=
  ⟨by decide, by decide,
    (addTransaction_fails_iff toyRuntime (signedTransfer 9 (some "B") 60) ledgerPendingSixty
      (by decide) (by decide)).1.mpr
      (Or.inr (Or.inr (Or.inr (Or.inr
        ⟨"A", 100, by decide, by decide, Or.inr (by decide)⟩))))⟩

/-- C4 (the code departs from the claim). The aggregate guard of `addTransaction` adds the
pending amounts and the new amount in double precision, so a total that is not a double
is rounded before it is compared with the balance. As long as the volume of the chain and
of the pool is within 2^53 every sum is exact: in every ledger state reachable from a
fresh ledger by `addTransaction` and `minePendingTransactions`, the pending amounts sent
from an address then add up to at most its balance, and a transfer that would exceed it
is rejected (with balance 100 and 60 pending, a second transfer of 60 is rejected with
the error of the aggregate check). Beyond that the guard lets the pool exceed the
balance: where "A" holds 2^53 and has 2^53 pending, a further transfer of 1 is admitted,
since 2^53 + 1 rounds to 2^53, and "A" then has 2^53 + 1 pending against a balance of
2^53. -/
theorem pending_may_exceed_balance :
    (∀ (env : Runtime) (s : Blockchain), Reachable env s →
        chainVolume s.chain + volume s.pendingTransactions ≤ exactBound →
        ∀ a : String,
          s.getBalanceOfAddress a = .finite (replayBalance s.chain a) ∧
          sentFrom a s.pendingTransactions ≤ replayBalance s.chain a ∧
          ∀ tx : Transaction, tx.fromAddress = some a →
            volume s.pendingTransactions + tx.amount.natAbs ≤ exactBound →
            sentFrom a s.pendingTransactions + tx.amount > replayBalance s.chain a →
            (s.addTransaction env tx).result ≠ .ok ()) ∧
      (Reachable toyRuntime ledgerPendingSixty ∧
        ledgerPendingSixty.getBalanceOfAddress "A" = .finite 100 ∧
        sentFrom "A" ledgerPendingSixty.pendingTransactions = 60 ∧
        (signedTransfer 9 (some "B") 60).isValid toyRuntime = .ok true ∧
        (ledgerPendingSixty.addTransaction toyRuntime (signedTransfer 9 (some "B") 60)).result
          = .error .pendingExceedsBalance) ∧
      (ReachableWithRewards toyRuntime ledgerOverPending ∧
        ledgerAllPending.getBalanceOfAddress "A" = .finite 9007199254740992 ∧
        sentFrom "A" ledgerAllPending.pendingTransactions = 9007199254740992 ∧
        (signedTransfer 4 (some "B") 1).isValid toyRuntime = .ok true ∧
        (ledgerAllPending.addTransaction toyRuntime (signedTransfer 4 (some "B") 1)).result
          = .ok () ∧
        ledgerOverPending.getBalanceOfAddress "A" = .finite 9007199254740992 ∧
        sentFrom "A" ledgerOverPending.pendingTransactions = 9007199254740993) := by
  refine ⟨?_, ⟨Reachable.add _ _ reachable_ledgerOneBlock, by decide, by decide, by decide,
    by decide⟩, ⟨reachableWithRewards_ledgerOverPending, by decide, by decide, by decide,
    by decide, by decide, by decide⟩⟩
  intro env s h hb a
  obtain ⟨h1, -, h3⟩ := ledgerInv_exact s (reachable_ledgerInv env s h) hb a
  refine ⟨h1, h3, ?_⟩
  intro tx hf hp hgt hok
  obtain ⟨b, hb', -, -, -, -, -, hle⟩ :=
    (admissible_iff_exact env tx s (by omega) hp).mp ((addTransaction_ok_iff env tx s).mp hok)
  rw [hf] at hb'
  have := Option.some.inj hb'
  subst this
  omega

/-- Witness of C4: the ledger where "A" holds 100 with 60 pending is reachable with a
volume of 160; the pending 60 are within the balance, and a second transfer of 60 from
"A" is rejected. -/
theorem pending_may_exceed_balance_witness :
    Reachable toyRuntime ledgerPendingSixty ∧
      chainVolume ledgerPendingSixty.chain + volume ledgerPendingSixty.pendingTransactions
        = 160 ∧
      sentFrom "A" ledgerPendingSixty.pendingTransactions
        ≤ replayBalance ledgerPendingSixty.chain "A" ∧
      (ledgerPendingSixty.addTransaction toyRuntime (signedTransfer 9 (some "B") 60)).result
        ≠ .ok () :=
  ⟨Reachable.add _ _ reachable_ledgerOneBlock, by decide,
    (pending_may_exceed_balance.1 toyRuntime ledgerPendingSixty
      (Reachable.add _ _ reachable_ledgerOneBlock) (by decide) "A").2.1,
    (pending_may_exceed_balance.1 toyRuntime ledgerPendingSixty
      (Reachable.add _ _ reachable_ledgerOneBlock) (by decide) "A").2.2
      (signedTransfer 9 (some "B") 60) (by decide) (by decide) (by decide)⟩

/-! ## Mining and balances (C5, C6, C7) -/

/-- C5, the claim as stated fails: on the fresh ledger set to difficulty 4294967295 the
call `minePendingTransactions("A")` raises a `RangeError` (the loop condition of
`mineBlock` asks for an array of 4294967296 elements) after the reward transaction has
been pushed: the chain is unchanged, no block has been added, and the pending pool holds
the reward transaction. -/
theorem minePendingTransactions_raises_at_large_difficulty :
    (∀ fuel : Nat, ledgerLargeDifficulty.minePendingTransactions toyRuntime 1 2 fuel "A"
        = some ⟨.error .rangeError, ledgerRaised⟩) ∧
      ledgerRaised.chain = ledgerLargeDifficulty.chain ∧
      ledgerRaised.pendingTransactions
        = [{ fromAddress := none, toAddress := some "A", amount := 100, timestamp := 1,
             signature := none }] ∧
      ¬ ∃ B : Block, ledgerRaised.chain = ledgerLargeDifficulty.chain ++ [B] ∧
          ledgerRaised.pendingTransactions = [] := by
  refine ⟨fun _ => rfl, by decide, by decide, ?_⟩
  rintro ⟨B, -, h⟩
  exact absurd h (by decide)

/-- C5, amended: on a ledger with chain `C` (not empty), pending pool `P`, reward `R` and a
difficulty for which the runtime builds the string of zeros (`difficulty ≤ joinLimit`, a
bound below 4294967295), a call `minePendingTransactions(a)` that ends returns without
raising and leaves the chain `C` followed by exactly one new block `B` and an empty
pending pool; the transactions of `B` are `P` in order followed by the unsigned reward
transaction (no sender, recipient `a`, amount `R`), the `previousHash` of `B` is the
stored hash of the last block of `C`, and difficulty and reward are unchanged. The call
ends whenever the mining loop has an exit. -/
theorem minePendingTransactions_appends_block (env : Runtime) (txNow blockNow : Int)
    (a : String) (s : Blockchain) (latest : Block) (hl : s.chain.getLast? = some latest)
    (hd : s.difficulty ≤ env.joinLimit) :
    (∀ (fuel : Nat) (out : Outcome),
        s.minePendingTransactions env txNow blockNow fuel a = some out →
        out.result = .ok () ∧
          ∃ B : Block, out.state.chain = s.chain ++ [B] ∧
            out.state.pendingTransactions = [] ∧
            B.transactions = s.pendingTransactions ++
              [{ fromAddress := none, toAddress := some a, amount := s.miningReward,
                 timestamp := txNow, signature := none }] ∧
            B.previousHash = latest.hash ∧
            out.state.difficulty = s.difficulty ∧ out.state.miningReward = s.miningReward) ∧
      (WorkExists env s.difficulty (candidateBlock env txNow blockNow a s latest) →
        ∃ fuel out, s.minePendingTransactions env txNow blockNow fuel a = some out) := by
  refine ⟨?_, ?_⟩
  · intro fuel out h
    obtain ⟨B, hout, htx, hprev, -⟩ :=
      minePendingTransactions_some env txNow blockNow fuel a s out latest hl hd h
    subst hout
    exact ⟨rfl, B, rfl, rfl, htx, hprev, rfl, rfl⟩
  · intro hw
    obtain ⟨fuel, out, h, -⟩ := minePendingTransactions_returns env txNow blockNow a s latest hl hd hw
    exact ⟨fuel, out, h⟩

/-- Witness of C5: mining on the fresh ledger of `toyRuntime`, at difficulty 1, returns
with two evaluations of the loop condition. -/
theorem minePendingTransactions_appends_block_witness :
    (Blockchain.new toyRuntime).chain.getLast? = some (createGenesisBlock toyRuntime) ∧
      (Blockchain.new toyRuntime).difficulty ≤ toyRuntime.joinLimit ∧
      (Blockchain.new toyRuntime).minePendingTransactions toyRuntime 1 2 2 "A"
        = some ⟨.ok (), ledgerOneBlock⟩ ∧
      ∃ B : Block, ledgerOneBlock.chain = (Blockchain.new toyRuntime).chain ++ [B] ∧
        ledgerOneBlock.pendingTransactions = [] ∧
        B.transactions = [{ fromAddress := none, toAddress := some "A", amount := 100,
                            timestamp := 1, signature := none }] ∧
        B.previousHash = (createGenesisBlock toyRuntime).hash :=
  ⟨by decide, by decide, by decide,
    have h := ((minePendingTransactions_appends_block toyRuntime 1 2 "A"
      (Blockchain.new toyRuntime) (createGenesisBlock toyRuntime) (by decide) (by decide)).1 2
      ⟨.ok (), ledgerOneBlock⟩ (by decide)).2
    h.imp (fun _ hB => ⟨hB.1, hB.2.1, hB.2.2.1, hB.2.2.2.1⟩)⟩

/-- C6, the claim as stated fails: on the ledger where "A" holds 2^53 and two transfers
of 1 from "B" to "A" are pending, after `minePendingTransactions("M")` the balance of "A"
is still 2^53, not 2^53 + 2: each addition of 1 to 2^53 is rounded back to 2^53. -/
theorem mined_balance_is_rounded :
    ledgerTwoOnesPending.minePendingTransactions toyRuntime 7 8 2 "M"
        = some ⟨.ok (), ledgerTwoOnesMined⟩ ∧
      ledgerTwoOnesPending.getBalanceOfAddress "A" = .finite 9007199254740992 ∧
      sentTo "A" ledgerTwoOnesPending.pendingTransactions = 2 ∧
      sentFrom "A" ledgerTwoOnesPending.pendingTransactions = 0 ∧
      ledgerTwoOnesMined.getBalanceOfAddress "A" = .finite 9007199254740992 ∧
      ledgerTwoOnesMined.getBalanceOfAddress "A"
        ≠ .finite (9007199254740992 + sentTo "A" ledgerTwoOnesPending.pendingTransactions
            - sentFrom "A" ledgerTwoOnesPending.pendingTransactions
            + (if "A" = "M" then ledgerTwoOnesPending.miningReward else 0)) := by
  refine ⟨by decide, by decide, by decide, by decide, by decide, by decide⟩

/-- C6, amended: on a ledger on which the volume of the chain, the volume of the pending
pool and the magnitude of the reward add up to at most 2^53 (so that no sum is rounded),
after a call `minePendingTransactions(r)` that returns without raising, the balance of
every address `x` is its balance before the call, plus the amounts of the pending
transactions sent to `x`, minus the amounts of the pending transactions sent from `x`,
plus the mining reward when `x = r`. The call returns whenever the runtime builds the
string of zeros of the difficulty and the mining loop has an exit. -/
theorem balance_after_minePendingTransactions (env : Runtime) (txNow blockNow : Int)
    (r : String) (s : Blockchain) (x : String)
    (hb : chainVolume s.chain + volume s.pendingTransactions + s.miningReward.natAbs
      ≤ exactBound) :
    (∀ (fuel : Nat) (out : Outcome),
        s.minePendingTransactions env txNow blockNow fuel r = some out →
        out.result = .ok () →
        ∃ v : Int, s.getBalanceOfAddress x = .finite v ∧
          out.state.getBalanceOfAddress x
            = .finite (v + sentTo x s.pendingTransactions
                - sentFrom x s.pendingTransactions + (if x = r then s.miningReward else 0))) ∧
      (∀ latest, s.chain.getLast? = some latest → s.difficulty ≤ env.joinLimit →
        WorkExists env s.difficulty (candidateBlock env txNow blockNow r s latest) →
        ∃ fuel out, s.minePendingTransactions env txNow blockNow fuel r = some out ∧
          out.result = .ok ()) :=
  ⟨fun fuel out h hok =>
      ⟨replayBalance s.chain x, balance_after_mining env txNow blockNow fuel r s out x hb h hok⟩,
    fun latest hl hd => minePendingTransactions_returns env txNow blockNow r s latest hl hd⟩

/-- Witness of C6, the end-to-end scenario: on a fresh ledger "A" mines (reward 100),
sends 40 to "B" and mines again; then the balance of "A" is 160 and that of "B" is 40. -/
theorem balance_after_minePendingTransactions_witness :
    chainVolume ledgerPendingForty.chain + volume ledgerPendingForty.pendingTransactions
        + ledgerPendingForty.miningReward.natAbs ≤ exactBound ∧
      ledgerPendingForty.minePendingTransactions toyRuntime 4 5 2 "A"
        = some ⟨.ok (), ledgerTwoBlocks⟩ ∧
      (∃ v : Int, ledgerPendingForty.getBalanceOfAddress "A" = .finite v ∧
        ledgerTwoBlocks.getBalanceOfAddress "A"
          = .finite (v + sentTo "A" ledgerPendingForty.pendingTransactions
              - sentFrom "A" ledgerPendingForty.pendingTransactions
              + (if "A" = "A" then ledgerPendingForty.miningReward else 0))) ∧
      ledgerPendingForty.getBalanceOfAddress "A" = .finite 100 ∧
      ledgerTwoBlocks.getBalanceOfAddress "A" = .finite 160 ∧
      ledgerTwoBlocks.getBalanceOfAddress "B" = .finite 40 :=
  ⟨by decide, by decide,
    (balance_after_minePendingTransactions toyRuntime 4 5 "A" ledgerPendingForty "A"
      (by decide)).1 2 ⟨.ok (), ledgerTwoBlocks⟩ (by decide) rfl,
    by decide, by decide, by decide⟩

/-- C7, the claim as stated fails: on the ledger where "A" has mined one block for a
reward of 2^53 and a second one for a reward of 1, `getBalanceOfAddress("A")` returns
2^53, while the sum of the committed amounts sent to "A" is 2^53 + 1. -/
theorem getBalanceOfAddress_is_rounded :
    ReachableWithRewards toyRuntime ledgerLargeThenOne ∧
      (ledgerLargeThenOne.chain.map (fun b => b.transactions.map (fun tx => tx.amount)))
        = [[], [9007199254740992], [1]] ∧
      ledgerLargeThenOne.getBalanceOfAddress "A" = .finite 9007199254740992 ∧
      ((ledgerLargeThenOne.chain.map (fun b => b.transactions)).flatten.map
          (fun tx => (if tx.toAddress = some "A" then tx.amount else 0)
            - (if tx.fromAddress = some "A" then tx.amount else 0))).sum
        = 9007199254740993 :=
  ⟨ReachableWithRewards.mine ledgerRewardOne 3 4 2 "A" ⟨.ok (), ledgerLargeThenOne⟩
      (ReachableWithRewards.setMiningReward ledgerLargeReward 1
        reachableWithRewards_ledgerLargeReward (by decide))
      (by decide),
    by decide, by decide, by decide⟩

/-- C7, amended: on a ledger whose chain has a volume within 2^53 (so that no sum is
rounded), the balance of an address is the sum, over every transaction of every committed
block, of `+amount` when the address is the recipient and `-amount` when it is the
sender. On every ledger the balance does not depend on the pending pool, a call of
`addTransaction` leaves the balance of every address unchanged, and on a fresh ledger
every balance is 0. -/
theorem getBalanceOfAddress_replays_chain :
    (∀ (s : Blockchain) (x : String), chainVolume s.chain ≤ exactBound →
        s.getBalanceOfAddress x
          = .finite ((s.chain.map (fun b => b.transactions)).flatten.map
              (fun tx => (if tx.toAddress = some x then tx.amount else 0)
                - (if tx.fromAddress = some x then tx.amount else 0))).sum) ∧
      (∀ (s : Blockchain) (p : List Transaction) (x : String),
        Blockchain.getBalanceOfAddress { s with pendingTransactions := p } x
          = s.getBalanceOfAddress x) ∧
      (∀ (env : Runtime) (s : Blockchain) (tx : Transaction) (x : String),
        (s.addTransaction env tx).state.getBalanceOfAddress x = s.getBalanceOfAddress x) ∧
      (∀ (env : Runtime) (x : String),
        (Blockchain.new env).getBalanceOfAddress x = .finite 0) := by
  refine ⟨?_, fun _ _ _ => rfl, ?_, ?_⟩
  · intro s x h
    rw [getBalanceOfAddress_exact s x h]; rfl
  · intro env s tx x
    exact addTransaction_balance env tx s x
  · intro env x
    exact getBalanceOfAddress_fresh env x

/-- Witness of C7: the chain of the end-to-end ledger has volume 240, and the balance of
"A" on it is the exact sum 100 - 40 + 100. -/
theorem getBalanceOfAddress_replays_chain_witness :
    chainVolume ledgerTwoBlocks.chain = 240 ∧
      ledgerTwoBlocks.getBalanceOfAddress "A"
        = .finite ((ledgerTwoBlocks.chain.map (fun b => b.transactions)).flatten.map
            (fun tx => (if tx.toAddress = some "A" then tx.amount else 0)
              - (if tx.fromAddress = some "A" then tx.amount else 0))).sum ∧
      ledgerTwoBlocks.getBalanceOfAddress "A" = .finite 160 :=
  ⟨by decide, getBalanceOfAddress_replays_chain.1 ledgerTwoBlocks "A" (by decide), by decide⟩

/-! ## Signing and verification (C8, C9, C10) -/

/-- C8. `isValid` returns `true` when the sender is absent, whatever the signature field
holds; when the sender is present and the signature is absent or empty it fails with the
missing-signature error; in every remaining case its result is the result of
elliptic-curve verification of `calculateHash()` against the stored signature, with the
sender as public key. -/
theorem isValid_cases (env : Runtime) (tx : Transaction) :
    (tx.fromAddress = none → tx.isValid env = .ok true) ∧
      (∀ a, tx.fromAddress = some a → (tx.signature = none ∨ tx.signature = some "") →
        tx.isValid env = .error .noSignature) ∧
      (∀ a sig, tx.fromAddress = some a → tx.signature = some sig → sig ≠ "" →
        ∃ h, tx.calculateHash env = .ok h ∧ tx.isValid env = env.ecVerify a h sig) := by
  refine ⟨?_, ?_, ?_⟩
  · intro h; simp [Transaction.isValid, h]
  · intro a ha hs
    rcases hs with hs | hs <;> simp [Transaction.isValid, ha, hs]
  · intro a sig ha hs hne
    have hlen : ¬ sig.length = 0 := fun h0 => hne ((string_length_eq_zero sig).mp h0)
    refine ⟨_, calculateHash_of_sender env tx a ha, ?_⟩
    simp [Transaction.isValid, ha, hs, hlen, calculateHash_of_sender env tx a ha]

/-- Witness of C8: the three cases on concrete transactions in `toyRuntime`. -/
theorem isValid_cases_witness :
    (Transaction.new 1 none (some "A") 100).isValid toyRuntime = .ok true ∧
      (Transaction.new 3 (some "A") (some "B") 40).isValid toyRuntime = .error .noSignature ∧
      ∃ h, (signedTransfer 3 (some "B") 40).calculateHash toyRuntime = .ok h ∧
        (signedTransfer 3 (some "B") 40).isValid toyRuntime
          = toyRuntime.ecVerify "A" h "A:0AB403" :=
  ⟨(isValid_cases toyRuntime (Transaction.new 1 none (some "A") 100)).1 rfl,
    (isValid_cases toyRuntime (Transaction.new 3 (some "A") (some "B") 40)).2.1 "A" rfl
      (Or.inl rfl),
    (isValid_cases toyRuntime (signedTransfer 3 (some "B") 40)).2.2 "A" "A:0AB403"
      (by decide) (by decide) (by decide)⟩

/-- C9. `signTransaction` fails exactly when the public component of the key differs from
the sender of the transaction; the failure is the key-mismatch error and the transaction
is left unchanged. Otherwise it succeeds and stores as signature the signature of
`calculateHash()` under the private component of the key, leaving sender, recipient,
amount and timestamp, and therefore `calculateHash()`, unchanged. -/
theorem signTransaction_cases (env : Runtime) (key : SigningKey) (tx : Transaction) :
    ((tx.signTransaction env key).1 ≠ .ok () ↔ tx.fromAddress ≠ some key.publicKey) ∧
      (tx.fromAddress ≠ some key.publicKey →
        (tx.signTransaction env key).1 = .error .keyMismatch ∧
          (tx.signTransaction env key).2 = tx) ∧
      (tx.fromAddress = some key.publicKey →
        ∃ h, tx.calculateHash env = .ok h ∧
          (tx.signTransaction env key).1 = .ok () ∧
          (tx.signTransaction env key).2.signature = some (env.ecSign key.privateKey h) ∧
          (tx.signTransaction env key).2.fromAddress = tx.fromAddress ∧
          (tx.signTransaction env key).2.toAddress = tx.toAddress ∧
          (tx.signTransaction env key).2.amount = tx.amount ∧
          (tx.signTransaction env key).2.timestamp = tx.timestamp ∧
          (tx.signTransaction env key).2.calculateHash env = tx.calculateHash env) := by
  have hmis : tx.fromAddress ≠ some key.publicKey →
      tx.signTransaction env key = (.error .keyMismatch, tx) := by
    intro h
    have h2 : some key.publicKey ≠ tx.fromAddress := fun e => h e.symm
    simp [Transaction.signTransaction, h2]
  have hsame : tx.fromAddress = some key.publicKey →
      tx.signTransaction env key
        = (.ok (), { tx with signature := some (env.ecSign key.privateKey
            (env.sha256 (key.publicKey ++ jsString tx.toAddress ++ toString tx.amount
              ++ toString tx.timestamp))) }) := by
    intro h
    simp [Transaction.signTransaction, h, calculateHash_of_sender env tx _ h]
  refine ⟨?_, ?_, ?_⟩
  · constructor
    · intro h heq
      rw [hsame heq] at h; exact h rfl
    · intro h
      rw [hmis h]; simp
  · intro h
    rw [hmis h]; exact ⟨rfl, rfl⟩
  · intro h
    refine ⟨_, calculateHash_of_sender env tx _ h, ?_⟩
    rw [hsame h]
    refine ⟨rfl, rfl, rfl, rfl, rfl, rfl, ?_⟩
    simp [Transaction.calculateHash, Transaction.hashInput]

/-- Witness of C9: signing a transfer from "A" with the key of "A" stores the signature;
signing it with another key fails and changes nothing. -/
theorem signTransaction_cases_witness :
    ((Transaction.new 3 (some "A") (some "B") 40).signTransaction toyRuntime
        { publicKey := "C", privateKey := "C" }
      = (.error .keyMismatch, Transaction.new 3 (some "A") (some "B") 40)) ∧
      ∃ h, (Transaction.new 3 (some "A") (some "B") 40).calculateHash toyRuntime = .ok h ∧
        ((Transaction.new 3 (some "A") (some "B") 40).signTransaction toyRuntime keyA).1
          = .ok () ∧
        ((Transaction.new 3 (some "A") (some "B") 40).signTransaction toyRuntime keyA).2.signature
          = some (toyRuntime.ecSign "A" h) :=
  ⟨Prod.ext
      ((signTransaction_cases toyRuntime { publicKey := "C", privateKey := "C" }
        (Transaction.new 3 (some "A") (some "B") 40)).2.1 (by decide)).1
      ((signTransaction_cases toyRuntime { publicKey := "C", privateKey := "C" }
        (Transaction.new 3 (some "A") (some "B") 40)).2.1 (by decide)).2,
    (signTransaction_cases toyRuntime keyA
      (Transaction.new 3 (some "A") (some "B") 40)).2.2 rfl |>.imp
        (fun _ hh => ⟨hh.1, hh.2.1, hh.2.2.1⟩)⟩

/-- C10. Sign-then-verify round trip: for a key pair `k` and a transaction whose sender
is the public component of `k`, `signTransaction(k)` succeeds and `isValid()` then
returns `true`, provided the signature scheme accepts, under the public key, every
signature it produces under the private key for the same message (and the hex encoding
of a signature is never the empty string). -/
theorem sign_then_isValid (env : Runtime) (k : SigningKey) (tx : Transaction)
    (hfrom : tx.fromAddress = some k.publicKey)
    (haccept : ∀ msg, env.ecVerify k.publicKey msg (env.ecSign k.privateKey msg) = .ok true)
    (hne : ∀ msg, env.ecSign k.privateKey msg ≠ "") :
    (tx.signTransaction env k).1 = .ok () ∧
      (tx.signTransaction env k).2.isValid env = .ok true := by
  have hsame : tx.signTransaction env k
      = (.ok (), { tx with signature := some (env.ecSign k.privateKey
          (env.sha256 (k.publicKey ++ jsString tx.toAddress ++ toString tx.amount
            ++ toString tx.timestamp))) }) := by
    simp [Transaction.signTransaction, hfrom, calculateHash_of_sender env tx _ hfrom]
  rw [hsame]
  refine ⟨rfl, ?_⟩
  have hlen : ∀ msg, ¬ (env.ecSign k.privateKey msg).length = 0 :=
    fun msg h0 => hne msg ((string_length_eq_zero _).mp h0)
  simp [Transaction.isValid, hfrom, hlen, Transaction.calculateHash, Transaction.hashInput,
    jsString, haccept]

/-- Witness of C10: in `toyRuntime`, a transfer of 40 from "A" to "B" signed with the key
of "A" verifies. -/
theorem sign_then_isValid_witness :
    (Transaction.new 3 (some "A") (some "B") 40).fromAddress = some keyA.publicKey ∧
      ((Transaction.new 3 (some "A") (some "B") 40).signTransaction toyRuntime keyA).1
        = .ok () ∧
      ((Transaction.new 3 (some "A") (some "B") 40).signTransaction toyRuntime keyA).2.isValid
        toyRuntime = .ok true :=
  ⟨rfl, sign_then_isValid toyRuntime keyA (Transaction.new 3 (some "A") (some "B") 40) rfl
    (fun msg => by simp [toyRuntime, keyA])
    (fun msg => toy_signature_ne_empty _ msg)⟩

/-! ## The mining loop (C11, C12) -/

/-- C11. For every block and every difficulty `d` (0 included), whenever `mineBlock(d)`
terminates the stored hash of the block begins with `d` characters '0'. The loop
terminates whenever it has an exit, and at difficulty 0 it terminates at once. -/
theorem mineBlock_hash_meets_difficulty (env : Runtime) :
    (∀ (d fuel : Nat) (b b' : Block), Block.mineBlock env d fuel b = some b' →
        ∃ rest, b'.hash.data = List.replicate d '0' ++ rest) ∧
      (∀ (d : Nat) (b : Block), WorkExists env d b →
        ∃ fuel b', Block.mineBlock env d fuel b = some b') ∧
      (∀ b : Block, Block.mineBlock env 0 1 b = some b) :=
  ⟨fun d fuel b b' h => (needsMoreWork_eq_false_iff d b'.hash).mp (mineBlock_exit env d fuel b b' h),
    fun d b h => mineBlock_returns env d b h,
    fun b => mineBlock_done env 0 0 b (needsMoreWork_zero b.hash)⟩

/-- Witness of C11: in `toyRuntime` the block mined on the fresh ledger at difficulty 1
has a hash that begins with '0'. -/
theorem mineBlock_hash_meets_difficulty_witness :
    ∃ b', Block.mineBlock toyRuntime 1 2
        (candidateBlock toyRuntime 1 2 "A" (Blockchain.new toyRuntime)
          (createGenesisBlock toyRuntime)) = some b' ∧
      b'.nonce = 1 ∧ ∃ rest, b'.hash.data = List.replicate 1 '0' ++ rest :=
  ⟨{ (candidateBlock toyRuntime 1 2 "A" (Blockchain.new toyRuntime)
        (createGenesisBlock toyRuntime)) with
      nonce := 1, hash := "0f01716163200000undefined2[null,A,100,1,]1" },
    by decide, rfl,
    (mineBlock_hash_meets_difficulty toyRuntime).1 1 2
      (candidateBlock toyRuntime 1 2 "A" (Blockchain.new toyRuntime)
        (createGenesisBlock toyRuntime)) _ (by decide)⟩

/-- C12 (the code departs from the claim). The constructor of `Block` computes the hash
before it sets `nonce`, so the first hash is the digest with the text "undefined" in
place of the nonce. When the mining loop performs no iteration (always at difficulty 0,
and at any difficulty that the first hash already meets) the block is returned as
constructed: its stored hash is that digest, while `calculateHash()` is the digest at
nonce 0. In `toyRuntime`, whose digest is injective, the two differ for the genesis data
mined at difficulty 0. After at least one iteration the stored hash does equal
`calculateHash()`. -/
theorem mineBlock_without_iteration_keeps_first_hash :
    (∀ (env : Runtime) (d fuel : Nat) (timestamp : Int) (transactions : List Transaction)
        (previousHash : String),
        needsMoreWork d (blockDigest env previousHash timestamp transactions none) = false →
        ∃ b, Block.mineBlock env d (fuel + 1) (Block.new env timestamp transactions previousHash)
            = some b ∧
          b.hash = blockDigest env previousHash timestamp transactions none ∧
          b.calculateHash env = blockDigest env previousHash timestamp transactions (some 0)) ∧
      (∀ (env : Runtime) (timestamp : Int) (transactions : List Transaction)
        (previousHash : String),
        Block.mineBlock env 0 1 (Block.new env timestamp transactions previousHash)
          = some (Block.new env timestamp transactions previousHash)) ∧
      (∃ b, Block.mineBlock toyRuntime 0 1 (Block.new toyRuntime genesisTimestamp [] "0") = some b ∧
        b.hash = "f01716163200000undefined" ∧
        b.calculateHash toyRuntime = "0017161632000000" ∧
        b.hash ≠ b.calculateHash toyRuntime) ∧
      (∀ (env : Runtime) (d fuel : Nat) (b b' : Block), Block.mineBlock env d fuel b = some b' →
        b' ≠ b → b'.hash = b'.calculateHash env) := by
  refine ⟨?_, ?_, ?_, ?_⟩
  · intro env d fuel timestamp transactions previousHash h
    exact ⟨_, mineBlock_done env d fuel _ h, rfl, rfl⟩
  · intro env timestamp transactions previousHash
    exact mineBlock_done env 0 0 _ (needsMoreWork_zero _)
  · exact ⟨_, rfl, by decide, by decide, by decide⟩
  · intro env d fuel b b' h hne
    rcases mineBlock_consistent env d fuel b b' h with h1 | h1
    · exact absurd h1 hne
    · exact h1

/-! ## Tampering and honest chains (C13, C14) -/

/-- C13 (the code departs from the claim). `isChainValid` returns the same result after
the amount of a transaction committed in a block at index 2 or later has been changed,
since it inspects the block at index 1 only. On the ledger of the end-to-end scenario
(reachable, and valid for `isChainValid`), changing the amount of the transfer committed
in the block at index 2 from 40 to 4000 leaves the result `true`, although the stored
hash of that block no longer equals its recomputed hash. -/
theorem isChainValid_blind_to_later_tampering :
    (∀ (env : Runtime) (s : Blockchain) (i j : Nat) (amount : Int), 2 ≤ i →
        (s.tamperAmount i j amount).isChainValid env = s.isChainValid env) ∧
      (Reachable toyRuntime ledgerTwoBlocks ∧
        ledgerTwoBlocks.isChainValid toyRuntime = .ok true ∧
        (ledgerTwoBlocks.tamperAmount 2 0 4000).isChainValid toyRuntime = .ok true ∧
        ∃ b c, ledgerTwoBlocks.chain[2]? = some b ∧
          (ledgerTwoBlocks.tamperAmount 2 0 4000).chain[2]? = some c ∧
          b.transactions.map (fun tx => tx.amount) = [40, 100] ∧
          c.transactions.map (fun tx => tx.amount) = [4000, 100] ∧
          c.hash = b.hash ∧ b.hash = b.calculateHash toyRuntime ∧
          c.hash ≠ c.calculateHash toyRuntime) :=
  ⟨fun env s i j amount h => isChainValid_tamperAmount env s i j amount h,
    reachable_ledgerTwoBlocks, by decide, by decide,
    ⟨_, _, rfl, rfl, by decide, by decide, by decide, by decide, by decide⟩⟩

/-- C14 (the code departs from the claim). On a fresh ledger set to difficulty `d`, when
the hash computed by the constructor of the first mined block already meets `d` (always
so for `d = 0`), `minePendingTransactions` returns with that block unchanged, and
`isChainValid` then returns `false` unless the digest with "undefined" in place of the
nonce collides with the digest at nonce 0. In `toyRuntime` the ledger mined once at
difficulty 0 is reported invalid. -/
theorem isChainValid_false_on_honest_chain :
    (∀ (env : Runtime) (d fuel : Nat) (txNow blockNow : Int) (addr : String),
        needsMoreWork d
          (candidateBlock env txNow blockNow addr ((Blockchain.new env).setDifficulty d)
            (createGenesisBlock env)).hash = false →
        ∃ out, ((Blockchain.new env).setDifficulty d).minePendingTransactions env txNow
            blockNow (fuel + 1) addr = some out ∧ out.result = .ok () ∧
          ((candidateBlock env txNow blockNow addr ((Blockchain.new env).setDifficulty d)
              (createGenesisBlock env)).hash
            ≠ (candidateBlock env txNow blockNow addr ((Blockchain.new env).setDifficulty d)
              (createGenesisBlock env)).calculateHash env →
            out.state.isChainValid env = .ok false)) ∧
      (∀ (env : Runtime) (txNow blockNow : Int) (addr : String),
        needsMoreWork 0
          (candidateBlock env txNow blockNow addr ((Blockchain.new env).setDifficulty 0)
            (createGenesisBlock env)).hash = false) ∧
      (((Blockchain.new toyRuntime).setDifficulty 0).minePendingTransactions toyRuntime 1 2 1 "A"
          = some ⟨.ok (), ledgerDifficultyZero⟩ ∧
        ledgerDifficultyZero.pendingTransactions = [] ∧
        ledgerDifficultyZero.isChainValid toyRuntime = .ok false) := by
  refine ⟨?_, fun env txNow blockNow addr => needsMoreWork_zero _, by decide, by decide,
    by decide⟩
  intro env d fuel txNow blockNow addr h
  obtain ⟨out, h1, h2, -, h4⟩ := isChainValid_first_block_unmined env d fuel txNow blockNow addr h
  exact ⟨out, h1, h2, h4⟩

/-! ## Invariants of the chain (C15, C16) -/

/-- C15. In every ledger state reachable from a fresh ledger by `addTransaction`,
`minePendingTransactions`, `setDifficulty` and `setMiningReward`, the chain is not empty,
its first block is the fixed genesis block (no transactions, the fixed timestamp,
`previousHash` "0"), and the `previousHash` of every later block is the stored hash of
the block immediately before it. -/
theorem chain_starts_with_genesis_and_is_linked (env : Runtime) (s : Blockchain)
    (h : ReachableWithSettings env s) :
    s.chain ≠ [] ∧ s.chain[0]? = some (createGenesisBlock env) ∧
      ((createGenesisBlock env).transactions = [] ∧
        (createGenesisBlock env).timestamp = 1716163200000 ∧
        (createGenesisBlock env).previousHash = "0") ∧
      ∀ (i : Nat) (b c : Block), 1 ≤ i → s.chain[i - 1]? = some b → s.chain[i]? = some c →
        c.previousHash = b.hash := by
  obtain ⟨⟨rest, h1⟩, h2, -, -⟩ := reachableWithSettings_commitInv env s h
  refine ⟨by rw [h1]; simp, by rw [h1]; simp, ⟨rfl, rfl, rfl⟩, ?_⟩
  intro i b c hi hb hc
  obtain ⟨k, rfl⟩ : ∃ k, i = k + 1 := ⟨i - 1, by omega⟩
  exact h2 k b c (by simpa using hb) hc

/-- Witness of C15: the ledger of `toyRuntime` set to difficulty 0 and mined once. -/
theorem chain_starts_with_genesis_and_is_linked_witness :
    ReachableWithSettings toyRuntime ledgerDifficultyZero ∧
      ledgerDifficultyZero.chain.length = 2 ∧
      ledgerDifficultyZero.chain[0]? = some (createGenesisBlock toyRuntime) ∧
      ∀ (b c : Block), ledgerDifficultyZero.chain[0]? = some b →
        ledgerDifficultyZero.chain[1]? = some c → c.previousHash = b.hash :=
  ⟨reachableWithSettings_ledgerDifficultyZero, by decide,
    (chain_starts_with_genesis_and_is_linked toyRuntime ledgerDifficultyZero
      reachableWithSettings_ledgerDifficultyZero).2.1,
    fun b c hb hc => (chain_starts_with_genesis_and_is_linked toyRuntime ledgerDifficultyZero
      reachableWithSettings_ledgerDifficultyZero).2.2.2 1 b c (le_refl 1) hb hc⟩

/-- C16. In every ledger state reachable from a fresh ledger by `addTransaction` and
`minePendingTransactions`, `hasValidTransactions()` returns `true` (without raising) on
every committed block, and each committed transaction either has no sender or carries a
signature that verifies against its own `calculateHash()` under its sender. -/
theorem committed_blocks_have_valid_transactions (env : Runtime) (s : Blockchain)
    (h : Reachable env s) :
    ∀ b ∈ s.chain, b.hasValidTransactions env = .ok true ∧
      ∀ tx ∈ b.transactions, tx.fromAddress = none ∨
        ∃ a sig hsh, tx.fromAddress = some a ∧ tx.signature = some sig ∧
          tx.calculateHash env = .ok hsh ∧ env.ecVerify a hsh sig = .ok true := by
  obtain ⟨-, -, h3, -⟩ := reachableWithSettings_commitInv env s (reachable_withSettings env s h)
  intro b hb
  exact ⟨(hasValidTransactionsLoop_true_iff env b.transactions).mpr (h3 b hb),
    fun tx htx => isValid_true_cases env tx (h3 b hb tx htx)⟩

/-- Witness of C16: the three blocks of the end-to-end ledger in `toyRuntime`; the last
one holds the signed transfer of 40 and a reward. -/
theorem committed_blocks_have_valid_transactions_witness :
    Reachable toyRuntime ledgerTwoBlocks ∧ ledgerTwoBlocks.chain.length = 3 ∧
      ∀ b ∈ ledgerTwoBlocks.chain, b.hasValidTransactions toyRuntime = .ok true :=
  ⟨reachable_ledgerTwoBlocks, by decide,
    fun b hb => (committed_blocks_have_valid_transactions toyRuntime ledgerTwoBlocks
      reachable_ledgerTwoBlocks b hb).1⟩

/-! ## Admission is all-or-nothing (C17) -/

/-- C17. When `addTransaction` fails, the ledger (chain, pending pool, difficulty, reward)
is exactly as before the call; when it succeeds, the pending pool is the old pool with
the transaction appended once, and chain, difficulty and reward are unchanged. -/
theorem addTransaction_all_or_nothing (env : Runtime) (tx : Transaction) (s : Blockchain) :
    ((s.addTransaction env tx).result ≠ .ok () → (s.addTransaction env tx).state = s) ∧
      ((s.addTransaction env tx).result = .ok () →
        (s.addTransaction env tx).state.pendingTransactions = s.pendingTransactions ++ [tx] ∧
        (s.addTransaction env tx).state.chain = s.chain ∧
        (s.addTransaction env tx).state.difficulty = s.difficulty ∧
        (s.addTransaction env tx).state.miningReward = s.miningReward) := by
  constructor
  · intro h
    have hn : ¬ Admissible env tx s := fun ha => h ((addTransaction_ok_iff env tx s).mpr ha)
    exact (addTransaction_of_not_admissible env tx s hn).2
  · intro h
    rw [addTransaction_of_admissible env tx s ((addTransaction_ok_iff env tx s).mp h)]
    exact ⟨rfl, rfl, rfl, rfl⟩

/-- Witness of C17: on the ledger where "A" holds 100 with 60 pending, a second transfer
of 60 fails and leaves the ledger as it was; a transfer of 40 succeeds and is appended. -/
theorem addTransaction_all_or_nothing_witness :
    (ledgerPendingSixty.addTransaction toyRuntime (signedTransfer 9 (some "B") 60)).state
        = ledgerPendingSixty ∧
      (ledgerPendingSixty.addTransaction toyRuntime
          (signedTransfer 9 (some "B") 40)).state.pendingTransactions
        = ledgerPendingSixty.pendingTransactions ++ [signedTransfer 9 (some "B") 40] :=
  ⟨(addTransaction_all_or_nothing toyRuntime (signedTransfer 9 (some "B") 60)
      ledgerPendingSixty).1 (by decide),
    ((addTransaction_all_or_nothing toyRuntime (signedTransfer 9 (some "B") 40)
      ledgerPendingSixty).2 (by decide)).1⟩

/-! ## Validity of the transactions of a block (C18) -/

/-- C18. `hasValidTransactions()` returns `true` if and only if `isValid()` returns `true`
for every transaction of the block (so it is `true` for a block without transactions),
and it stops at the first transaction that is not valid: when a transaction returns
`false` and no transaction before it raises, the result is `false` whatever follows, also
when a later transaction alone would raise the missing-signature error. -/
theorem hasValidTransactions_iff (env : Runtime) :
    (∀ b : Block, b.hasValidTransactions env = .ok true ↔
        ∀ tx ∈ b.transactions, tx.isValid env = .ok true) ∧
      (∀ b : Block, b.transactions = [] → b.hasValidTransactions env = .ok true) ∧
      (∀ (b : Block) (pre post : List Transaction) (t : Transaction),
        b.transactions = pre ++ t :: post →
        (∀ tx ∈ pre, ∃ v, tx.isValid env = .ok v) → t.isValid env = .ok false →
        b.hasValidTransactions env = .ok false) := by
  refine ⟨fun b => hasValidTransactionsLoop_true_iff env b.transactions, ?_, ?_⟩
  · intro b hb
    simp [Block.hasValidTransactions, hb, hasValidTransactionsLoop]
  · intro b pre post t hb hpre ht
    simp only [Block.hasValidTransactions, hb]
    exact hasValidTransactionsLoop_false env pre post t hpre ht

/-- Witness of C18: in `toyRuntime`, a block that holds a reward, then a transfer whose
signature does not verify, then an unsigned transfer, is reported as not valid, although
`isValid()` raises the missing-signature error on the last transaction alone. -/
theorem hasValidTransactions_iff_witness :
    ({ signedTransfer 3 (some "B") 40 with amount := 41 } : Transaction).isValid toyRuntime
        = .ok false ∧
      (Transaction.new 4 (some "A") (some "B") 5).isValid toyRuntime = .error .noSignature ∧
      Block.hasValidTransactions toyRuntime
        { timestamp := 5,
          transactions := [Transaction.new 1 none (some "A") 100,
            { signedTransfer 3 (some "B") 40 with amount := 41 },
            Transaction.new 4 (some "A") (some "B") 5],
          previousHash := "0", hash := "0", nonce := 0 } = .ok false :=
  ⟨by decide, by decide,
    (hasValidTransactions_iff toyRuntime).2.2 _ [Transaction.new 1 none (some "A") 100]
      [Transaction.new 4 (some "A") (some "B") 5]
      { signedTransfer 3 (some "B") 40 with amount := 41 } rfl
      (fun tx htx => ⟨true, by
        rw [List.mem_singleton.mp htx]; decide⟩) (by decide)⟩

/-! ## Currency enters through mining only (C19) -/

/-- C19, the claim as stated fails, in two ways. Where "A" holds 2^53 and the reward is 1,
after `minePendingTransactions("A")` the balance of "A", the only address of the ledger,
is still 2^53: the sum of the balances has not grown by the reward. And on the ledger
where a call of `minePendingTransactions("A")` at difficulty 4294967295 has raised and
left its reward transaction in the pool, the next call, at difficulty 1, commits two
reward transactions: the balance of "A", the only address of the ledger, grows from 0 to
200 while the reward is 100. -/
theorem mining_changes_sum_by_other_than_reward :
    (ReachableWithSettings toyRuntime ledgerRewardOne ∧
        ledgerRewardOne.minePendingTransactions toyRuntime 3 4 2 "A"
          = some ⟨.ok (), ledgerLargeThenOne⟩ ∧
        ledgerRewardOne.pendingTransactions = [] ∧
        ledgerRewardOne.miningReward = 1 ∧
        ledgerRewardOne.getBalanceOfAddress "A" = .finite 9007199254740992 ∧
        ledgerLargeThenOne.getBalanceOfAddress "A" = .finite 9007199254740992 ∧
        (9007199254740992 : Int) ≠ 9007199254740992 + ledgerRewardOne.miningReward) ∧
      (ReachableWithSettings toyRuntime ledgerRaisedReset ∧
        ledgerRaisedReset.minePendingTransactions toyRuntime 3 4 2 "A"
          = some ⟨.ok (), ledgerTwoRewards⟩ ∧
        ledgerRaisedReset.pendingTransactions
          = [{ fromAddress := none, toAddress := some "A", amount := 100, timestamp := 1,
               signature := none }] ∧
        ledgerRaisedReset.miningReward = 100 ∧
        ledgerRaisedReset.getBalanceOfAddress "A" = .finite 0 ∧
        ledgerTwoRewards.getBalanceOfAddress "A" = .finite 200 ∧
        (200 : Int) ≠ 0 + ledgerRaisedReset.miningReward) :=
  ⟨⟨ReachableWithSettings.setMiningReward ledgerLargeReward 1
      (reachableWithSettings_of_rewards _ _ reachableWithRewards_ledgerLargeReward),
    by decide, by decide, by decide, by decide, by decide, by decide⟩,
   ⟨reachableWithSettings_ledgerRaisedReset, by decide, by decide, by decide, by decide,
    by decide, by decide⟩⟩

/-- C19, amended: in every reachable ledger state a call of `addTransaction` leaves the
balance of every address, and so every sum of balances, unchanged. When every pending
transaction has a sender (no reward transaction was left in the pool by a mining call
that raised), the volume of the chain, the volume of the pool and the magnitude of the
reward add up to at most 2^53 (so that no sum is rounded), and the finite set `S`
contains the reward address and the sender and recipient of every pending transaction, a
call of `minePendingTransactions` that returns without raising increases the sum over `S`
of the balances, each of which is the exact replayed sum, by exactly the mining reward.
The call returns whenever the runtime builds the string of zeros of the difficulty and
the mining loop has an exit. -/
theorem mining_is_only_source_of_currency (env : Runtime) (s : Blockchain)
    (h : ReachableWithSettings env s) (S : Finset String) :
    (∀ (tx : Transaction) (x : String),
        (s.addTransaction env tx).state.getBalanceOfAddress x = s.getBalanceOfAddress x) ∧
      (∀ (txNow blockNow : Int) (fuel : Nat) (r : String) (out : Outcome), r ∈ S →
        (∀ tx ∈ s.pendingTransactions, ∀ a,
          tx.fromAddress = some a ∨ tx.toAddress = some a → a ∈ S) →
        (∀ tx ∈ s.pendingTransactions, tx.fromAddress ≠ none) →
        chainVolume s.chain + volume s.pendingTransactions + s.miningReward.natAbs
          ≤ exactBound →
        s.minePendingTransactions env txNow blockNow fuel r = some out →
        out.result = .ok () →
        (∀ x, s.getBalanceOfAddress x = .finite (replayBalance s.chain x)) ∧
        (∀ x, out.state.getBalanceOfAddress x = .finite (replayBalance out.state.chain x)) ∧
        S.sum (fun x => replayBalance out.state.chain x)
          = S.sum (fun x => replayBalance s.chain x) + s.miningReward) ∧
      (∀ (txNow blockNow : Int) (r : String) (latest : Block),
        s.chain.getLast? = some latest → s.difficulty ≤ env.joinLimit →
        WorkExists env s.difficulty (candidateBlock env txNow blockNow r s latest) →
        ∃ fuel out, s.minePendingTransactions env txNow blockNow fuel r = some out ∧
          out.result = .ok ()) := by
  refine ⟨?_, ?_, ?_⟩
  · intro tx x
    exact addTransaction_balance env tx s x
  · intro txNow blockNow fuel r out hr hS hsend hb hm hok
    have hvol := fun x => (replay_after_mining env txNow blockNow fuel r s out x hm hok).2
    refine ⟨fun x => getBalanceOfAddress_exact s x (by omega),
      fun x => getBalanceOfAddress_exact out.state x (by rw [hvol x]; exact hb), ?_⟩
    exact sum_replay_after_mining env txNow blockNow fuel r s out S
      (reachableWithSettings_commitInv env s h)
      (fun tx htx => by
        cases hf : tx.fromAddress with
        | none => exact absurd hf (hsend tx htx)
        | some a => exact ⟨a, rfl⟩)
      hr hS hm hok
  · intro txNow blockNow r latest hl hd hw
    exact minePendingTransactions_returns env txNow blockNow r s latest hl hd hw

/-- Witness of C19: in the end-to-end scenario, with 40 pending from "A" to "B", mining
for "A" raises the sum of the balances of "A" and "B" from 100 to 200. -/
theorem mining_is_only_source_of_currency_witness :
    ReachableWithSettings toyRuntime ledgerPendingForty ∧
      ledgerPendingForty.minePendingTransactions toyRuntime 4 5 2 "A"
        = some ⟨.ok (), ledgerTwoBlocks⟩ ∧
      ((∀ x, ledgerPendingForty.getBalanceOfAddress x
          = .finite (replayBalance ledgerPendingForty.chain x)) ∧
        (∀ x, ledgerTwoBlocks.getBalanceOfAddress x
          = .finite (replayBalance ledgerTwoBlocks.chain x)) ∧
        Finset.sum {"A", "B"} (fun x => replayBalance ledgerTwoBlocks.chain x)
          = Finset.sum {"A", "B"} (fun x => replayBalance ledgerPendingForty.chain x)
            + ledgerPendingForty.miningReward) ∧
      Finset.sum {"A", "B"} (fun x => replayBalance ledgerPendingForty.chain x) = 100 ∧
      ledgerPendingForty.miningReward = 100 :=
  ⟨reachable_withSettings _ _ (Reachable.add _ _ reachable_ledgerOneBlock), by decide,
    (mining_is_only_source_of_currency toyRuntime ledgerPendingForty
      (reachable_withSettings _ _ (Reachable.add _ _ reachable_ledgerOneBlock))
      {"A", "B"}).2.1 4 5 2 "A" ⟨.ok (), ledgerTwoBlocks⟩ (by decide)
      (by
        intro tx htx a ha
        have hp : ledgerPendingForty.pendingTransactions = [signedTransfer 3 (some "B") 40] := by
          decide
        rw [hp, List.mem_singleton] at htx
        subst htx
        have hf : (signedTransfer 3 (some "B") 40).fromAddress = some "A" := by decide
        have ht : (signedTransfer 3 (some "B") 40).toAddress = some "B" := by decide
        rw [hf, ht] at ha
        rcases ha with ha | ha
        · rw [← Option.some.inj ha]; decide
        · rw [← Option.some.inj ha]; decide)
      (by decide) (by decide) (by decide) rfl,
    by decide, by decide⟩

/-! ## The setter routes (C20) -/

/-- C20 (the code departs from the claim). The handler of `POST /setDifficulty` answers
'mining difficulty set.' but calls `setMiningReward`: for every ledger and every provided
non-zero value `d`, after the request the difficulty is what it was and the mining reward
is `d`. On a fresh ledger the request with `d = 3` leaves the difficulty at 1 and sets
the reward to 3. The handler of `POST /setMiningReward` and the method `setDifficulty`
itself are overwrites of their own field only. -/
theorem postSetDifficulty_overwrites_reward :
    (∀ (s : Blockchain) (d : Int), d ≠ 0 →
        (postSetDifficulty (some d) s).1 = { status := 200, text := "mining difficulty set." } ∧
        (postSetDifficulty (some d) s).2.difficulty = s.difficulty ∧
        (postSetDifficulty (some d) s).2.miningReward = d ∧
        (postSetDifficulty (some d) s).2.chain = s.chain ∧
        (postSetDifficulty (some d) s).2.pendingTransactions = s.pendingTransactions) ∧
      ((postSetDifficulty (some 3) (Blockchain.new toyRuntime)).2.difficulty = 1 ∧
        (postSetDifficulty (some 3) (Blockchain.new toyRuntime)).2.miningReward = 3 ∧
        (Blockchain.new toyRuntime).miningReward = 100) ∧
      (∀ (s : Blockchain) (r : Int), r ≠ 0 →
        (postSetMiningReward (some r) s).1 = { status := 200, text := "mining reward set." } ∧
        (postSetMiningReward (some r) s).2 = { s with miningReward := r }) ∧
      (∀ (s : Blockchain) (d : Nat), s.setDifficulty d = { s with difficulty := d }) := by
  refine ⟨?_, by decide, ?_, fun s d => rfl⟩
  · intro s d hd
    simp [postSetDifficulty, hd, Blockchain.setMiningReward]
  · intro s r hr
    simp [postSetMiningReward, hr, Blockchain.setMiningReward]

/-! ## No overdraft (C21) -/

/-- C21 (the code departs from the claim). The two balance guards of `addTransaction`
compare in double precision, and the aggregate guard adds the pending amounts and the
new amount in double precision. As long as the volume of the chain and of the pool is
within 2^53 every sum is exact, and in every ledger state reachable from a fresh ledger
by `setMiningReward` with non-negative values, `addTransaction` and
`minePendingTransactions` the balance of every address is at least 0. Beyond that the
guard admits an overdraft: with the reward set to 2^53, "A" mines and holds 2^53; a
transfer of 2^53 and then a transfer of 1 from "A" to "B" are both admitted, since
2^53 + 1 rounds to 2^53; after "M" has mined them the balance of "A" is -1. -/
theorem balance_may_become_negative :
    (∀ (env : Runtime) (s : Blockchain), ReachableWithRewards env s →
        chainVolume s.chain + volume s.pendingTransactions ≤ exactBound →
        ∀ x : String, ∃ v : Int, s.getBalanceOfAddress x = .finite v ∧ 0 ≤ v ∧
          sentFrom x s.pendingTransactions ≤ v) ∧
      (ReachableWithRewards toyRuntime ledgerOverdrawn ∧
        ledgerLargeReward.getBalanceOfAddress "A" = .finite 9007199254740992 ∧
        (ledgerLargeReward.addTransaction toyRuntime
          (signedTransfer 3 (some "B") 9007199254740992)).result = .ok () ∧
        (ledgerAllPending.addTransaction toyRuntime (signedTransfer 4 (some "B") 1)).result
          = .ok () ∧
        ledgerOverPending.minePendingTransactions toyRuntime 5 6 2 "M"
          = some ⟨.ok (), ledgerOverdrawn⟩ ∧
        ledgerOverdrawn.getBalanceOfAddress "A" = .finite (-1)) := by
  refine ⟨?_, reachableWithRewards_ledgerOverdrawn, by decide, by decide, by decide,
    by decide, by decide⟩
  intro env s h hb x
  obtain ⟨h1, h2, h3⟩ := ledgerInv_exact s (reachableWithRewards_ledgerInv env s h) hb x
  exact ⟨_, h1, by omega, h3⟩

/-- Witness of C21: the ledger of the end-to-end scenario is reachable with a volume of
240, and on it the balance of "A" is a number that is not negative. -/
theorem balance_may_become_negative_witness :
    ReachableWithRewards toyRuntime ledgerTwoBlocks ∧
      chainVolume ledgerTwoBlocks.chain + volume ledgerTwoBlocks.pendingTransactions = 240 ∧
      ledgerTwoBlocks.getBalanceOfAddress "A" = .finite 160 ∧
      ∃ v : Int, ledgerTwoBlocks.getBalanceOfAddress "A" = .finite v ∧ 0 ≤ v ∧
        sentFrom "A" ledgerTwoBlocks.pendingTransactions ≤ v :=
  ⟨reachable_withRewards _ _ reachable_ledgerTwoBlocks, by decide, by decide,
    balance_may_become_negative.1 toyRuntime ledgerTwoBlocks
      (reachable_withRewards _ _ reachable_ledgerTwoBlocks) (by decide) "A"⟩


end DBcoin
